import Mathlib

/-!
Shallow embedding of the credential-store backend of `src/aws_tui.py`
(class `AwsCredentialsManager`).

The Python code keeps credentials in an INI file manipulated through the
standard library INI machinery.  The embedding models that machinery on the
line-oriented subset documented by the format grammar of the design: an
ordered list of sections, each an ordered list of string key/value entries;
option keys normalised to lower case on every read and write access; blank
lines and full-line `#`/`;` comments skipped; `[name]` headers whose name
runs to the last `]` of the stripped line; `key = value` or `key : value`
option lines split at the first delimiter, key and value stripped of
surrounding whitespace; strict duplicate detection within a single read;
reads that merge into the state already held by the shared in-memory
configuration object.  `%`-interpolation, the special upper-case `DEFAULT`
section and multi-line continuation values lie outside the modelled subset.
File-system state is a pair of strings (the credentials file and its `.bak`
sibling); mutating operations additionally report, in order, the file-system
events they perform, so that backup-before-write ordering is visible.
-/

abbrev Entries := List (String × String)

abbrev Sections := List (String × Entries)

/-- Key normalisation applied by the INI machinery to every option key. -/
def optionxform (s : String) : String := ⟨s.data.map Char.toLower⟩

def lookupSec : Sections → String → Option Entries
  | [], _ => none
  | (n, es) :: rest, name => if n = name then some es else lookupSec rest name

def hasSection (st : Sections) (name : String) : Bool := (lookupSec st name).isSome

/-- Adding a section appends it at the end of the section order. -/
def addSection (st : Sections) (name : String) : Sections := st ++ [(name, [])]

def removeSection (st : Sections) (name : String) : Sections :=
  st.filter (fun p => p.1 != name)

def lookupEntry : Entries → String → Option String
  | [], _ => none
  | (k, v) :: rest, key => if k = key then some v else lookupEntry rest key

/-- Setting an entry updates an existing key in place and appends a new one. -/
def setEntry : Entries → String → String → Entries
  | [], key, value => [(key, value)]
  | (k, v) :: rest, key, value =>
      if k = key then (key, value) :: rest else (k, v) :: setEntry rest key value

/-- `config[sec][key] = value`: the key goes through `optionxform`. -/
def setOption : Sections → String → String → String → Sections
  | [], _, _, _ => []
  | (n, es) :: rest, sec, key, value =>
      if n = sec then (n, setEntry es (optionxform key) value) :: rest
      else (n, es) :: setOption rest sec key value

def splitLinesCh : List Char → List (List Char)
  | [] => [[]]
  | c :: rest =>
      if c = '\n' then [] :: splitLinesCh rest
      else
        match splitLinesCh rest with
        | [] => [[c]]
        | l :: ls => (c :: l) :: ls

/-- The file content split at newlines, the way the reader iterates lines. -/
def splitLines (s : String) : List String := (splitLinesCh s.data).map (fun l => ⟨l⟩)

def lstripCh (cs : List Char) : List Char := cs.dropWhile Char.isWhitespace

def rstripCh (cs : List Char) : List Char := (cs.reverse.dropWhile Char.isWhitespace).reverse

def stripCh (cs : List Char) : List Char := lstripCh (rstripCh cs)

/-- `[name]` header recognition: the name runs to the last `]` of the line. -/
def parseHeader (v : List Char) : Option String :=
  match v with
  | [] => none
  | c :: rest =>
      if c = '[' then
        match rest.reverse.dropWhile (fun x => x != ']') with
        | [] => none
        | _ :: hrev => if hrev = [] then none else some ⟨hrev.reverse⟩
      else none

/-- Split at the first `=` or `:` delimiter of an option line. -/
def findDelim : List Char → Option (List Char × List Char)
  | [] => none
  | c :: rest =>
      if c = '=' ∨ c = ':' then some ([], rest)
      else (findDelim rest).map (fun p => (c :: p.1, p.2))

def parseOption (v : List Char) : Option (String × String) :=
  match findDelim v with
  | none => none
  | some (pre, post) =>
      let key := rstripCh pre
      if key = [] then none else some (optionxform ⟨key⟩, ⟨stripCh post⟩)

inductive ReadErr where
  | missingSectionHeader (line : String)
  | duplicateSection (name : String)
  | duplicateOption (sec key : String)
  | parsingError (line : String)
deriving DecidableEq

structure ReadState where
  store : Sections
  cursect : Option String
  secsAdded : List String
  optsAdded : List (String × String)
deriving DecidableEq

/-- One line of a read: blank and comment lines are skipped; a header selects
(and, when missing, appends) its section; an option line sets a key in the
current section; strict duplicate checks apply within the current read. -/
def readLine (s : ReadState) (line : String) : Except ReadErr ReadState :=
  let v := stripCh line.data
  if v = [] then .ok s
  else if v.head? = some '#' ∨ v.head? = some ';' then .ok s
  else
    match parseHeader v with
    | some name =>
        if s.secsAdded.contains name then .error (.duplicateSection name)
        else
          .ok { store := if hasSection s.store name then s.store else addSection s.store name
              , cursect := some name
              , secsAdded := name :: s.secsAdded
              , optsAdded := s.optsAdded }
    | none =>
        match s.cursect with
        | none => .error (.missingSectionHeader line)
        | some sec =>
            match parseOption v with
            | none => .error (.parsingError line)
            | some (key, value) =>
                if s.optsAdded.contains (sec, key) then .error (.duplicateOption sec key)
                else
                  .ok { s with
                          store := setOption s.store sec key value,
                          optsAdded := (sec, key) :: s.optsAdded }

def readLinesInto (store : Sections) (lines : List String) : Except ReadErr Sections :=
  (lines.foldlM readLine { store := store, cursect := none, secsAdded := [], optsAdded := [] }).map
    ReadState.store

/-- `config.read(path)`: parse the file content, merging into `store`. -/
def readInto (store : Sections) (content : String) : Except ReadErr Sections :=
  readLinesInto store (splitLines content)

def entryLine (k v : String) : String := k ++ " = " ++ v

/-- A serialised section: header line, one line per entry, one blank line. -/
def sectionLines (n : String) (es : Entries) : List String :=
  ("[" ++ n ++ "]") :: (es.map (fun kv => entryLine kv.1 kv.2) ++ [""])

def writeStoreLines (st : Sections) : List String :=
  (st.map (fun p => sectionLines p.1 p.2)).flatten

def unlines : List String → String
  | [] => ""
  | l :: ls => l ++ "\n" ++ unlines ls

/-- `config.write(f)`: the serialised form of the whole store. -/
def writeStore (st : Sections) : String := unlines (writeStoreLines st)

/-- A key that survives the write/read cycle unchanged: non-empty, already
in the normalised lower-case form, free of surrounding whitespace, not
mistakable for a header or comment line, and free of delimiter and newline
characters. -/
def validKey (k : String) : Prop :=
  k.data ≠ [] ∧ optionxform k = k ∧ lstripCh k.data = k.data ∧ rstripCh k.data = k.data ∧
  k.data.head? ≠ some '[' ∧ k.data.head? ≠ some '#' ∧ k.data.head? ≠ some ';' ∧
  ∀ c ∈ k.data, ¬c = '=' ∧ ¬c = ':' ∧ ¬c = '\n'

/-- A value that survives the write/read cycle: free of surrounding
whitespace (the reader strips it) and of newlines (single-line subset). -/
def validValue (v : String) : Prop :=
  lstripCh v.data = v.data ∧ rstripCh v.data = v.data ∧ '\n' ∉ v.data

/-- A section name that survives the write/read cycle: non-empty and free
of newlines. -/
def validName (n : String) : Prop := n.data ≠ [] ∧ '\n' ∉ n.data

def validEntries (es : Entries) : Prop :=
  (es.map Prod.fst).Nodup ∧ ∀ kv ∈ es, validKey kv.1 ∧ validValue kv.2

def validStore (st : Sections) : Prop :=
  (st.map Prod.fst).Nodup ∧ ∀ p ∈ st, validName p.1 ∧ validEntries p.2

instance decidableValidKey (k : String) : Decidable (validKey k) := by
  unfold validKey
  infer_instance

instance decidableValidValue (v : String) : Decidable (validValue v) := by
  unfold validValue
  infer_instance

instance decidableValidName (n : String) : Decidable (validName n) := by
  unfold validName
  infer_instance

instance decidableValidEntries (es : Entries) : Decidable (validEntries es) := by
  unfold validEntries
  infer_instance

instance decidableValidStore (st : Sections) : Decidable (validStore st) := by
  unfold validStore
  infer_instance

/-- The store transformation performed by `add_profile` after its load. -/
def applyAdd (st : Sections) (name access_key secret_key session_token : String) : Sections :=
  let cfg := if hasSection st name then st else addSection st name
  let cfg := setOption cfg name "aws_access_key_id" access_key
  let cfg := setOption cfg name "aws_secret_access_key" secret_key
  if session_token != "" then setOption cfg name "aws_session_token" session_token else cfg

/-- On-disk state: the credentials file and its `.bak` sibling. -/
structure World where
  file : String
  bak : Option String
deriving DecidableEq

inductive FsEvent where
  | copyToBak (content : String)
  | writeFile (content : String)
deriving DecidableEq

def applyEvent (w : World) : FsEvent → World
  | .copyToBak c => { w with bak := some c }
  | .writeFile c => { w with file := c }

def applyEvents (w : World) (evs : List FsEvent) : World := evs.foldl applyEvent w

/-- The manager holds one shared configuration object across operations. -/
structure Manager where
  config : Sections
deriving DecidableEq

/-- `self.load()`: re-read the file, merging into the shared configuration. -/
def load (m : Manager) (w : World) : Except ReadErr Manager :=
  (readInto m.config w.file).map Manager.mk

def get_profiles (m : Manager) (w : World) : Except ReadErr (List String × Manager) :=
  match load m w with
  | .error e => .error e
  | .ok m => .ok ((m.config.map Prod.fst).filter (fun sec => sec != "default"), m)

def get_profile_details (m : Manager) (w : World) (profile : String) :
    Except ReadErr (Entries × Manager) :=
  match load m w with
  | .error e => .error e
  | .ok m =>
      match lookupSec m.config profile with
      | some es => .ok (es, m)
      | none => .ok ([], m)

/-- `add_profile`: load, back up, ensure the section, set the two or three
credential fields, write the store back. -/
def add_profile (m : Manager) (w : World) (name access_key secret_key session_token : String) :
    Except ReadErr (Manager × World × List FsEvent) :=
  match load m w with
  | .error e => .error e
  | .ok m =>
      let cfg := if hasSection m.config name then m.config else addSection m.config name
      let cfg := setOption cfg name "aws_access_key_id" access_key
      let cfg := setOption cfg name "aws_secret_access_key" secret_key
      let cfg :=
        if session_token != "" then setOption cfg name "aws_session_token" session_token else cfg
      let content := writeStore cfg
      .ok (⟨cfg⟩, { file := content, bak := some w.file },
           [.copyToBak w.file, .writeFile content])

/-- `set_default`: load; if the source section is absent, return untouched;
otherwise back up, remove and recreate the `default` section, copy the source
section's entries into it, and write the store back.  The copy source is
looked up after the removal, exactly as the code does. -/
def set_default (m : Manager) (w : World) (source_profile : String) :
    Except ReadErr (Manager × World × List FsEvent) :=
  match load m w with
  | .error e => .error e
  | .ok m =>
      if hasSection m.config source_profile then
        let cfg := if hasSection m.config "default" then m.config else addSection m.config "default"
        let cfg := removeSection cfg "default"
        let cfg := addSection cfg "default"
        let src := (lookupSec cfg source_profile).getD []
        let cfg := src.foldl (fun c kv => setOption c "default" kv.1 kv.2) cfg
        let content := writeStore cfg
        .ok (⟨cfg⟩, { file := content, bak := some w.file },
             [.copyToBak w.file, .writeFile content])
      else .ok (m, w, [])

theorem lookupSec_eq_none_iff (c : Sections) (n : String) :
    lookupSec c n = none ↔ n ∉ c.map Prod.fst := by
  induction c with
  | nil => simp [lookupSec]
  | cons hd tl ih =>
      obtain ⟨m, e⟩ := hd
      by_cases hm : m = n
      · subst hm; simp [lookupSec]
      · simp [lookupSec, hm, ih, Ne.symm hm]

theorem lookupSec_append_self (c : Sections) (n : String) (es : Entries)
    (h : lookupSec c n = none) : lookupSec (c ++ [(n, es)]) n = some es := by
  induction c with
  | nil => simp [lookupSec]
  | cons hd tl ih =>
      obtain ⟨m, e⟩ := hd
      by_cases hm : m = n
      · rw [lookupSec, if_pos hm] at h; exact absurd h (by simp)
      · rw [lookupSec, if_neg hm] at h
        simpa [lookupSec, hm] using ih h

theorem lookupSec_append_ne (c : Sections) (n m : String) (es : Entries)
    (h : m ≠ n) : lookupSec (c ++ [(n, es)]) m = lookupSec c m := by
  induction c with
  | nil => simp [lookupSec, Ne.symm h]
  | cons hd tl ih =>
      obtain ⟨m0, e⟩ := hd
      by_cases hm : m0 = m
      · simp [lookupSec, hm]
      · simp [lookupSec, hm, ih]

theorem lookupSec_removeSection_self (c : Sections) (n : String) :
    lookupSec (removeSection c n) n = none := by
  induction c with
  | nil => simp [removeSection, lookupSec]
  | cons hd tl ih =>
      obtain ⟨m, e⟩ := hd
      by_cases hm : m = n
      · simpa [removeSection, hm] using ih
      · simpa [removeSection, lookupSec, hm] using ih

theorem lookupSec_removeSection_ne (c : Sections) (n m : String) (h : m ≠ n) :
    lookupSec (removeSection c n) m = lookupSec c m := by
  induction c with
  | nil => rfl
  | cons hd tl ih =>
      obtain ⟨m0, e⟩ := hd
      by_cases hm : m0 = n
      · have hm0 : ¬m0 = m := fun he => h (he ▸ hm)
        have hdrop : removeSection ((m0, e) :: tl) n = removeSection tl n := by
          simp [removeSection, List.filter_cons, hm]
        rw [hdrop, ih, lookupSec, if_neg hm0]
      · have hkeep : removeSection ((m0, e) :: tl) n = (m0, e) :: removeSection tl n := by
          simp [removeSection, List.filter_cons, hm]
        rw [hkeep]
        simp only [lookupSec]
        rw [ih]

theorem lookupSec_setOption_self (c : Sections) (sec k v : String) :
    lookupSec (setOption c sec k v) sec =
      (lookupSec c sec).map (fun es => setEntry es (optionxform k) v) := by
  induction c with
  | nil => simp [setOption, lookupSec]
  | cons hd tl ih =>
      obtain ⟨m, e⟩ := hd
      by_cases hm : m = sec
      · simp [setOption, lookupSec, hm]
      · simp [setOption, lookupSec, hm, ih]

theorem lookupSec_setOption_ne (c : Sections) (sec k v m : String) (h : m ≠ sec) :
    lookupSec (setOption c sec k v) m = lookupSec c m := by
  induction c with
  | nil => simp [setOption]
  | cons hd tl ih =>
      obtain ⟨m0, e⟩ := hd
      by_cases hm : m0 = sec
      · have hm0 : ¬m0 = m := fun he => h (he ▸ hm)
        rw [setOption, if_pos hm, lookupSec, if_neg hm0, lookupSec, if_neg hm0]
      · rw [setOption, if_neg hm]
        simp only [lookupSec]
        rw [ih]

theorem map_fst_setOption (c : Sections) (sec k v : String) :
    (setOption c sec k v).map Prod.fst = c.map Prod.fst := by
  induction c with
  | nil => simp [setOption]
  | cons hd tl ih =>
      obtain ⟨m, e⟩ := hd
      by_cases hm : m = sec
      · simp [setOption, hm]
      · simp [setOption, hm, ih]

theorem hasSection_setOption (c : Sections) (sec k v n : String) :
    hasSection (setOption c sec k v) n = hasSection c n := by
  by_cases h : n = sec
  · subst h
    rw [hasSection, hasSection, lookupSec_setOption_self]
    cases lookupSec c n <;> rfl
  · simp [hasSection, lookupSec_setOption_ne c sec k v n h]

theorem lookupEntry_eq_none_iff (es : Entries) (k : String) :
    lookupEntry es k = none ↔ k ∉ es.map Prod.fst := by
  induction es with
  | nil => simp [lookupEntry]
  | cons hd tl ih =>
      obtain ⟨k0, v0⟩ := hd
      by_cases hk : k0 = k
      · subst hk; simp [lookupEntry]
      · simp [lookupEntry, hk, ih, Ne.symm hk]

theorem lookupEntry_setEntry_self (es : Entries) (k v : String) :
    lookupEntry (setEntry es k v) k = some v := by
  induction es with
  | nil => simp [setEntry, lookupEntry]
  | cons hd tl ih =>
      obtain ⟨k0, v0⟩ := hd
      by_cases hk : k0 = k
      · simp [setEntry, lookupEntry, hk]
      · simp [setEntry, lookupEntry, hk, ih]

theorem lookupEntry_setEntry_ne (es : Entries) (k v k' : String) (h : k' ≠ k) :
    lookupEntry (setEntry es k v) k' = lookupEntry es k' := by
  induction es with
  | nil => simp [setEntry, lookupEntry, Ne.symm h]
  | cons hd tl ih =>
      obtain ⟨k0, v0⟩ := hd
      by_cases hk : k0 = k
      · have hkk : ¬k = k' := Ne.symm h
        have hk0 : ¬k0 = k' := fun he => hkk (hk ▸ he)
        rw [setEntry, if_pos hk, lookupEntry, if_neg hkk, lookupEntry, if_neg hk0]
      · rw [setEntry, if_neg hk]
        simp only [lookupEntry]
        rw [ih]

theorem setEntry_eq_of_lookup (es : Entries) (k v : String)
    (h : lookupEntry es k = some v) : setEntry es k v = es := by
  induction es with
  | nil => simp [lookupEntry] at h
  | cons hd tl ih =>
      obtain ⟨k0, v0⟩ := hd
      by_cases hk : k0 = k
      · rw [lookupEntry, if_pos hk] at h
        simp only [Option.some.injEq] at h
        simp [setEntry, hk, h]
      · rw [lookupEntry, if_neg hk] at h
        simp [setEntry, hk, ih h]

theorem setEntry_append_of_lookup_none (es : Entries) (k v : String)
    (h : lookupEntry es k = none) : setEntry es k v = es ++ [(k, v)] := by
  induction es with
  | nil => simp [setEntry]
  | cons hd tl ih =>
      obtain ⟨k0, v0⟩ := hd
      by_cases hk : k0 = k
      · rw [lookupEntry, if_pos hk] at h; exact absurd h (by simp)
      · rw [lookupEntry, if_neg hk] at h
        simp [setEntry, hk, ih h]

theorem map_fst_setEntry_of_lookup (es : Entries) (k v : String)
    (h : lookupEntry es k ≠ none) :
    (setEntry es k v).map Prod.fst = es.map Prod.fst := by
  induction es with
  | nil => simp [lookupEntry] at h
  | cons hd tl ih =>
      obtain ⟨k0, v0⟩ := hd
      by_cases hk : k0 = k
      · simp [setEntry, hk]
      · rw [lookupEntry, if_neg hk] at h
        simp [setEntry, hk, ih h]

theorem setOption_eq_of_lookup (c : Sections) (sec k v : String) (es : Entries)
    (h : lookupSec c sec = some es) (h2 : setEntry es (optionxform k) v = es) :
    setOption c sec k v = c := by
  induction c with
  | nil => simp [setOption]
  | cons hd tl ih =>
      obtain ⟨m, e⟩ := hd
      by_cases hm : m = sec
      · rw [lookupSec, if_pos hm] at h
        simp only [Option.some.injEq] at h
        simp [setOption, hm, h, h2]
      · rw [lookupSec, if_neg hm] at h
        simp [setOption, hm, ih h]

theorem lookupSec_eq_some_of_mem_nodup (c : Sections) (n : String) (es : Entries)
    (hnd : (c.map Prod.fst).Nodup) (hmem : (n, es) ∈ c) : lookupSec c n = some es := by
  induction c with
  | nil => simp at hmem
  | cons hd tl ih =>
      obtain ⟨m, e⟩ := hd
      simp only [List.map_cons, List.nodup_cons] at hnd
      rcases List.mem_cons.mp hmem with h | h
      · rw [Prod.mk.injEq] at h
        simp [lookupSec, h.1, h.2]
      · have hm : m ≠ n := by
          intro he
          exact hnd.1 (he ▸ (List.mem_map.mpr ⟨(n, es), h, rfl⟩))
        simp [lookupSec, hm, ih hnd.2 h]

theorem lookupEntry_append_of_none (a b : Entries) (k : String)
    (h : lookupEntry a k = none) : lookupEntry (a ++ b) k = lookupEntry b k := by
  induction a with
  | nil => rfl
  | cons hd tl ih =>
      obtain ⟨k0, v0⟩ := hd
      by_cases hk : k0 = k
      · rw [lookupEntry, if_pos hk] at h; exact absurd h (by simp)
      · rw [lookupEntry, if_neg hk] at h
        simpa [lookupEntry, hk] using ih h

theorem foldl_setOption_lookup_ne (es : Entries) (c : Sections) (d m : String) (h : m ≠ d) :
    lookupSec (es.foldl (fun c kv => setOption c d kv.1 kv.2) c) m = lookupSec c m := by
  induction es generalizing c with
  | nil => rfl
  | cons hd tl ih => rw [List.foldl_cons, ih, lookupSec_setOption_ne _ _ _ _ _ h]

theorem foldl_setOption_lookup_self (es : Entries) (c : Sections) (d : String) (acc : Entries)
    (h : lookupSec c d = some acc) :
    lookupSec (es.foldl (fun c kv => setOption c d kv.1 kv.2) c) d =
      some (es.foldl (fun a kv => setEntry a (optionxform kv.1) kv.2) acc) := by
  induction es generalizing c acc with
  | nil => simpa using h
  | cons hd tl ih =>
      rw [List.foldl_cons, List.foldl_cons]
      apply ih
      rw [lookupSec_setOption_self, h]
      rfl

theorem foldl_setEntry_fresh : ∀ es acc : Entries,
    (∀ kv ∈ es, optionxform kv.1 = kv.1) → (es.map Prod.fst).Nodup →
    (∀ kv ∈ es, lookupEntry acc kv.1 = none) →
    es.foldl (fun a kv => setEntry a (optionxform kv.1) kv.2) acc = acc ++ es := by
  intro es
  induction es with
  | nil => intro acc _ _ _; simp
  | cons hd tl ih =>
      intro acc hlower hnd hdis
      obtain ⟨k, v⟩ := hd
      rw [List.foldl_cons]
      have hl : optionxform (k, v).1 = (k, v).1 := hlower (k, v) (by simp)
      rw [hl, setEntry_append_of_lookup_none _ _ _ (hdis (k, v) (by simp))]
      simp only [List.map_cons, List.nodup_cons] at hnd
      have hdis2 : ∀ kv ∈ tl, lookupEntry (acc ++ [(k, v)]) kv.1 = none := by
        intro kv hm
        rw [lookupEntry_append_of_none _ _ _ (hdis kv (List.mem_cons_of_mem _ hm))]
        have hne : ¬k = kv.1 := by
          intro he
          exact hnd.1 (he ▸ (List.mem_map.mpr ⟨kv, hm, rfl⟩))
        simp [lookupEntry, hne]
      rw [ih (acc ++ [(k, v)]) (fun kv hm => hlower kv (List.mem_cons_of_mem _ hm)) hnd.2 hdis2]
      simp

theorem lookupSec_addSection_self (c : Sections) (n : String)
    (h : lookupSec c n = none) : lookupSec (addSection c n) n = some [] :=
  lookupSec_append_self c n [] h

theorem lookupSec_addSection_ne (c : Sections) (n m : String) (h : m ≠ n) :
    lookupSec (addSection c n) m = lookupSec c m :=
  lookupSec_append_ne c n m [] h

theorem load_ok (m : Manager) (w : World) (st : Sections)
    (h : readInto m.config w.file = .ok st) : load m w = .ok ⟨st⟩ := by
  unfold load
  rw [h]
  rfl

theorem load_error (m : Manager) (w : World) (e : ReadErr)
    (h : readInto m.config w.file = .error e) : load m w = .error e := by
  unfold load
  rw [h]
  rfl

theorem add_profile_error (m : Manager) (w : World) (n a s t : String) (e : ReadErr)
    (h : readInto m.config w.file = .error e) : add_profile m w n a s t = .error e := by
  unfold add_profile
  rw [load_error m w e h]

theorem set_default_error (m : Manager) (w : World) (src : String) (e : ReadErr)
    (h : readInto m.config w.file = .error e) : set_default m w src = .error e := by
  unfold set_default
  rw [load_error m w e h]

theorem add_profile_ok_shape (m : Manager) (w : World) (n a s t : String) (st : Sections)
    (h : readInto m.config w.file = .ok st) :
    ∃ c, add_profile m w n a s t =
      .ok (⟨c⟩, ⟨writeStore c, some w.file⟩,
           [.copyToBak w.file, .writeFile (writeStore c)]) := by
  unfold add_profile
  rw [load_ok m w st h]
  exact ⟨_, rfl⟩

theorem set_default_ok_shape (m : Manager) (w : World) (src : String) (st : Sections)
    (h : readInto m.config w.file = .ok st) (hs : hasSection st src = true) :
    ∃ c, set_default m w src =
      .ok (⟨c⟩, ⟨writeStore c, some w.file⟩,
           [.copyToBak w.file, .writeFile (writeStore c)]) := by
  unfold set_default
  rw [load_ok m w st h]
  simp only [hs, if_true]
  exact ⟨_, rfl⟩

theorem set_default_noop_shape (m : Manager) (w : World) (src : String) (st : Sections)
    (h : readInto m.config w.file = .ok st) (hs : hasSection st src = false) :
    set_default m w src = .ok (⟨st⟩, w, []) := by
  unfold set_default
  rw [load_ok m w st h]
  simp [hs]

/-- C3: when no section named `source_profile` exists in the loaded store,
`set_default` is a no-op: it succeeds, performs no file-system event, and
leaves the credentials file and the backup file byte-identical. -/
theorem C3_set_default_missing_noop (m : Manager) (w : World) (st : Sections)
    (source_profile : String)
    (hload : readInto m.config w.file = .ok st)
    (habs : hasSection st source_profile = false) :
    set_default m w source_profile = .ok (⟨st⟩, w, []) := by
  unfold set_default
  rw [load_ok m w st hload]
  simp [habs]

theorem C3_set_default_missing_noop_witness :
    set_default ⟨[]⟩ ⟨"", none⟩ "ghost" = .ok (⟨[]⟩, ⟨"", none⟩, []) :=
  C3_set_default_missing_noop ⟨[]⟩ ⟨"", none⟩ [] "ghost" rfl rfl

/-- C10: when a `default` section exists, `set_default "default"` succeeds
and persists a store whose `default` section exists but holds no entries:
the section is removed and recreated before its entries are copied, so the
copy source is already empty. -/
theorem C10_set_default_self_empties (m : Manager) (w : World) (st : Sections)
    (hload : readInto m.config w.file = .ok st)
    (hdef : hasSection st "default" = true) :
    ∃ cfg, set_default m w "default" =
        .ok (⟨cfg⟩, ⟨writeStore cfg, some w.file⟩,
             [.copyToBak w.file, .writeFile (writeStore cfg)]) ∧
      lookupSec cfg "default" = some [] := by
  have h1 : lookupSec (removeSection st "default") "default" = none :=
    lookupSec_removeSection_self st "default"
  have h2 : lookupSec (addSection (removeSection st "default") "default") "default" = some [] :=
    lookupSec_append_self _ _ _ h1
  refine ⟨addSection (removeSection st "default") "default", ?_, h2⟩
  unfold set_default
  rw [load_ok m w st hload]
  simp [hdef, h2]

theorem C10_set_default_self_empties_witness :
    ∃ cfg, set_default ⟨[]⟩ ⟨"[default]\na = 1\n\n", none⟩ "default" =
        .ok (⟨cfg⟩, ⟨writeStore cfg, some "[default]\na = 1\n\n"⟩,
             [.copyToBak "[default]\na = 1\n\n", .writeFile (writeStore cfg)]) ∧
      lookupSec cfg "default" = some [] :=
  C10_set_default_self_empties ⟨[]⟩ ⟨"[default]\na = 1\n\n", none⟩
    [("default", [("a", "1")])] rfl rfl

/-- C1, amended: for a source profile other than `"default"` itself, after a
successful `set_default` the persisted `default` section's entries are
exactly the source section's entries at the time of the call (the keys being
already in the normalised lower-case form every stored section has). -/
theorem C1_amended_set_default_exact (m : Manager) (w : World) (st : Sections)
    (src : String) (es : Entries)
    (hload : readInto m.config w.file = .ok st)
    (hsrc : src ≠ "default")
    (hmem : lookupSec st src = some es)
    (hlower : ∀ kv ∈ es, optionxform kv.1 = kv.1)
    (hnd : (es.map Prod.fst).Nodup) :
    ∃ cfg, set_default m w src =
        .ok (⟨cfg⟩, ⟨writeStore cfg, some w.file⟩,
             [.copyToBak w.file, .writeFile (writeStore cfg)]) ∧
      lookupSec cfg "default" = some es := by
  have hsrcb : hasSection st src = true := by rw [hasSection, hmem]; rfl
  have h0 : lookupSec (if hasSection st "default" then st else addSection st "default") src =
      some es := by
    by_cases hb : hasSection st "default"
    · rw [if_pos hb]; exact hmem
    · rw [if_neg hb, lookupSec_addSection_ne _ _ _ hsrc]; exact hmem
  have h1 :
      lookupSec (removeSection (if hasSection st "default" then st else addSection st "default")
        "default") src = some es := by
    rw [lookupSec_removeSection_ne _ _ _ hsrc]; exact h0
  have h2 :
      lookupSec (addSection (removeSection
        (if hasSection st "default" then st else addSection st "default") "default") "default")
        src = some es := by
    rw [lookupSec_addSection_ne _ _ _ hsrc]; exact h1
  have h3 :
      lookupSec (addSection (removeSection
        (if hasSection st "default" then st else addSection st "default") "default") "default")
        "default" = some [] :=
    lookupSec_append_self _ _ _ (lookupSec_removeSection_self _ _)
  have h4 :
      lookupSec (es.foldl (fun c kv => setOption c "default" kv.1 kv.2)
        (addSection (removeSection
          (if hasSection st "default" then st else addSection st "default") "default") "default"))
        "default" = some es := by
    rw [foldl_setOption_lookup_self es _ "default" [] h3,
        foldl_setEntry_fresh es [] hlower hnd (fun kv _ => rfl)]
    rfl
  refine ⟨_, ?_, h4⟩
  unfold set_default
  rw [load_ok m w st hload]
  simp only [Except.map, hsrcb, if_true, h2, Option.getD_some]

theorem C1_amended_set_default_exact_witness :
    ∃ cfg, set_default ⟨[]⟩ ⟨"[work]\na = 1\nb = 2\n\n", none⟩ "work" =
        .ok (⟨cfg⟩, ⟨writeStore cfg, some "[work]\na = 1\nb = 2\n\n"⟩,
             [.copyToBak "[work]\na = 1\nb = 2\n\n", .writeFile (writeStore cfg)]) ∧
      lookupSec cfg "default" = some [("a", "1"), ("b", "2")] :=
  C1_amended_set_default_exact ⟨[]⟩ ⟨"[work]\na = 1\nb = 2\n\n", none⟩
    [("work", [("a", "1"), ("b", "2")])] "work" [("a", "1"), ("b", "2")]
    rfl (by decide) rfl (by decide) (by decide)

/-- C8: `add_profile` creates the section `name` when absent, sets the
access-key and secret-key fields, sets the session-token field exactly when
the token is non-empty, and changes nothing else: every other key of the
section keeps its value and every other section keeps all its entries. -/
theorem C8_add_profile_frame (m : Manager) (w : World) (st : Sections)
    (name a s t : String)
    (hload : readInto m.config w.file = .ok st) :
    ∃ cfg es, add_profile m w name a s t =
        .ok (⟨cfg⟩, ⟨writeStore cfg, some w.file⟩,
             [.copyToBak w.file, .writeFile (writeStore cfg)]) ∧
      lookupSec cfg name = some es ∧
      lookupEntry es "aws_access_key_id" = some a ∧
      lookupEntry es "aws_secret_access_key" = some s ∧
      (t ≠ "" → lookupEntry es "aws_session_token" = some t) ∧
      (t = "" → lookupEntry es "aws_session_token" =
        lookupEntry ((lookupSec st name).getD []) "aws_session_token") ∧
      (∀ k, k ≠ "aws_access_key_id" → k ≠ "aws_secret_access_key" → k ≠ "aws_session_token" →
        lookupEntry es k = lookupEntry ((lookupSec st name).getD []) k) ∧
      (∀ sec, sec ≠ name → lookupSec cfg sec = lookupSec st sec) := by
  have hbase : lookupSec (if hasSection st name then st else addSection st name) name =
      some ((lookupSec st name).getD []) := by
    by_cases hb : hasSection st name
    · rw [if_pos hb]
      obtain ⟨es0, he⟩ := Option.isSome_iff_exists.mp hb
      rw [he]; rfl
    · have hnone : lookupSec st name = none := by
        cases hlk : lookupSec st name with
        | none => rfl
        | some x => exact absurd (by rw [hasSection, hlk]; rfl) hb
      rw [if_neg hb, lookupSec_addSection_self _ _ hnone, hnone]; rfl
  have hother : ∀ sec, sec ≠ name →
      lookupSec (if hasSection st name then st else addSection st name) sec =
        lookupSec st sec := by
    intro sec hne
    by_cases hb : hasSection st name
    · rw [if_pos hb]
    · rw [if_neg hb, lookupSec_addSection_ne _ _ _ hne]
  have hx1 : optionxform "aws_access_key_id" = "aws_access_key_id" := rfl
  have hx2 : optionxform "aws_secret_access_key" = "aws_secret_access_key" := rfl
  have hx3 : optionxform "aws_session_token" = "aws_session_token" := rfl
  have h2 : lookupSec
      (setOption (setOption (if hasSection st name then st else addSection st name)
        name "aws_access_key_id" a) name "aws_secret_access_key" s) name =
      some (setEntry (setEntry ((lookupSec st name).getD []) "aws_access_key_id" a)
        "aws_secret_access_key" s) := by
    rw [lookupSec_setOption_self, lookupSec_setOption_self, hbase, hx1, hx2]; rfl
  have h2o : ∀ sec, sec ≠ name → lookupSec
      (setOption (setOption (if hasSection st name then st else addSection st name)
        name "aws_access_key_id" a) name "aws_secret_access_key" s) sec = lookupSec st sec := by
    intro sec hne
    rw [lookupSec_setOption_ne _ _ _ _ _ hne, lookupSec_setOption_ne _ _ _ _ _ hne, hother sec hne]
  by_cases ht : t = ""
  · subst ht
    refine ⟨setOption (setOption (if hasSection st name then st else addSection st name)
        name "aws_access_key_id" a) name "aws_secret_access_key" s,
      setEntry (setEntry ((lookupSec st name).getD []) "aws_access_key_id" a)
        "aws_secret_access_key" s, ?_, ?_, ?_, ?_, ?_, ?_, ?_, ?_⟩
    · unfold add_profile
      rw [load_ok m w st hload]
      rfl
    · exact h2
    · rw [lookupEntry_setEntry_ne _ _ _ _ (by decide), lookupEntry_setEntry_self]
    · rw [lookupEntry_setEntry_self]
    · intro hc; exact absurd rfl hc
    · intro _
      rw [lookupEntry_setEntry_ne _ _ _ _ (by decide),
          lookupEntry_setEntry_ne _ _ _ _ (by decide)]
    · intro k hk1 hk2 _
      rw [lookupEntry_setEntry_ne _ _ _ _ hk2, lookupEntry_setEntry_ne _ _ _ _ hk1]
    · exact h2o
  · have htb : (t != "") = true := by simpa using ht
    refine ⟨setOption (setOption (setOption
        (if hasSection st name then st else addSection st name)
        name "aws_access_key_id" a) name "aws_secret_access_key" s) name "aws_session_token" t,
      setEntry (setEntry (setEntry ((lookupSec st name).getD [])
        "aws_access_key_id" a) "aws_secret_access_key" s) "aws_session_token" t,
      ?_, ?_, ?_, ?_, ?_, ?_, ?_, ?_⟩
    · unfold add_profile
      rw [load_ok m w st hload]
      simp only [htb, if_true]
    · rw [lookupSec_setOption_self, h2, hx3]; rfl
    · rw [lookupEntry_setEntry_ne _ _ _ _ (by decide),
          lookupEntry_setEntry_ne _ _ _ _ (by decide), lookupEntry_setEntry_self]
    · rw [lookupEntry_setEntry_ne _ _ _ _ (by decide), lookupEntry_setEntry_self]
    · intro _; rw [lookupEntry_setEntry_self]
    · intro hc; exact absurd hc ht
    · intro k hk1 hk2 hk3
      rw [lookupEntry_setEntry_ne _ _ _ _ hk3, lookupEntry_setEntry_ne _ _ _ _ hk2,
          lookupEntry_setEntry_ne _ _ _ _ hk1]
    · intro sec hne
      rw [lookupSec_setOption_ne _ _ _ _ _ hne, h2o sec hne]

theorem C8_add_profile_frame_witness :
    ∃ cfg es, add_profile ⟨[]⟩ ⟨"[p]\nextra = 9\n\n", none⟩ "p" "AK" "SK" "TOK" =
        .ok (⟨cfg⟩, ⟨writeStore cfg, some "[p]\nextra = 9\n\n"⟩,
             [.copyToBak "[p]\nextra = 9\n\n", .writeFile (writeStore cfg)]) ∧
      lookupSec cfg "p" = some es ∧
      lookupEntry es "aws_access_key_id" = some "AK" ∧
      lookupEntry es "aws_secret_access_key" = some "SK" ∧
      ("TOK" ≠ "" → lookupEntry es "aws_session_token" = some "TOK") ∧
      ("TOK" = "" → lookupEntry es "aws_session_token" =
        lookupEntry ((lookupSec [("p", [("extra", "9")])] "p").getD []) "aws_session_token") ∧
      (∀ k, k ≠ "aws_access_key_id" → k ≠ "aws_secret_access_key" → k ≠ "aws_session_token" →
        lookupEntry es k = lookupEntry ((lookupSec [("p", [("extra", "9")])] "p").getD []) k) ∧
      (∀ sec, sec ≠ "p" → lookupSec cfg sec = lookupSec [("p", [("extra", "9")])] sec) :=
  C8_add_profile_frame ⟨[]⟩ ⟨"[p]\nextra = 9\n\n", none⟩ [("p", [("extra", "9")])]
    "p" "AK" "SK" "TOK" rfl

/-- C6: every mutating call (`add_profile` always, `set_default` when the
source section exists, which is exactly when it performs file-system events)
first copies the whole pre-call file to the backup path and only then writes
the main file; consequently, at every prefix of the event trace the main
file still holds its pre-call content or the backup holds it. -/
theorem C6_backup_before_write (m m' : Manager) (w w' : World) (evs : List FsEvent)
    (h : (∃ n a s t, add_profile m w n a s t = .ok (m', w', evs)) ∨
         ∃ src, set_default m w src = .ok (m', w', evs) ∧ evs ≠ []) :
    (evs = [.copyToBak w.file, .writeFile w'.file] ∧ w'.bak = some w.file) ∧
    ∀ i, (applyEvents w (evs.take i)).file = w.file ∨
         (applyEvents w (evs.take i)).bak = some w.file := by
  have hshape : evs = [.copyToBak w.file, .writeFile w'.file] ∧ w'.bak = some w.file := by
    rcases h with ⟨n, a, s, t, heq⟩ | ⟨src, heq, hne⟩
    · cases hread : readInto m.config w.file with
      | error e =>
          rw [add_profile_error m w n a s t e hread] at heq
          exact absurd heq (by simp)
      | ok st =>
          obtain ⟨c, hc⟩ := add_profile_ok_shape m w n a s t st hread
          rw [hc] at heq
          simp only [Except.ok.injEq, Prod.mk.injEq] at heq
          obtain ⟨hm, hw, hevs⟩ := heq
          subst hw
          subst hevs
          exact ⟨rfl, rfl⟩
    · cases hread : readInto m.config w.file with
      | error e =>
          rw [set_default_error m w src e hread] at heq
          exact absurd heq (by simp)
      | ok st =>
          cases hs : hasSection st src with
          | true =>
              obtain ⟨c, hc⟩ := set_default_ok_shape m w src st hread hs
              rw [hc] at heq
              simp only [Except.ok.injEq, Prod.mk.injEq] at heq
              obtain ⟨hm, hw, hevs⟩ := heq
              subst hw
              subst hevs
              exact ⟨rfl, rfl⟩
          | false =>
              rw [set_default_noop_shape m w src st hread hs] at heq
              simp only [Except.ok.injEq, Prod.mk.injEq] at heq
              exact absurd heq.2.2.symm hne
  refine ⟨hshape, ?_⟩
  intro i
  rw [hshape.1]
  match i with
  | 0 => left; rfl
  | 1 => right; rfl
  | Nat.succ (Nat.succ i) =>
      right
      rw [List.take_succ_cons, List.take_succ_cons, List.take_nil]
      rfl

theorem C6_backup_before_write_witness :
    ([FsEvent.copyToBak "", FsEvent.writeFile "[q]\naws_access_key_id = A\naws_secret_access_key = S\n\n"] =
        [FsEvent.copyToBak "", FsEvent.writeFile "[q]\naws_access_key_id = A\naws_secret_access_key = S\n\n"] ∧
      some "" = some "") ∧
    ∀ i, (applyEvents ⟨"", none⟩
        (([FsEvent.copyToBak "", FsEvent.writeFile
          "[q]\naws_access_key_id = A\naws_secret_access_key = S\n\n"]).take i)).file = "" ∨
      (applyEvents ⟨"", none⟩
        (([FsEvent.copyToBak "", FsEvent.writeFile
          "[q]\naws_access_key_id = A\naws_secret_access_key = S\n\n"]).take i)).bak = some "" :=
  C6_backup_before_write ⟨[]⟩
    ⟨[("q", [("aws_access_key_id", "A"), ("aws_secret_access_key", "S")])]⟩
    ⟨"", none⟩
    ⟨"[q]\naws_access_key_id = A\naws_secret_access_key = S\n\n", some ""⟩
    [FsEvent.copyToBak "", FsEvent.writeFile
      "[q]\naws_access_key_id = A\naws_secret_access_key = S\n\n"]
    (Or.inl ⟨"q", "A", "S", "", rfl⟩)

theorem foldlM_readLine_nil (s : ReadState) : ([] : List String).foldlM readLine s = .ok s := rfl

theorem foldlM_readLine_cons (s : ReadState) (hd : String) (tl : List String) :
    (hd :: tl).foldlM readLine s =
      match readLine s hd with
      | .ok s1 => tl.foldlM readLine s1
      | .error e => .error e := by
  rw [List.foldlM_cons]
  cases readLine s hd <;> rfl

theorem hasSection_eq_false_iff (c : Sections) (n : String) :
    hasSection c n = false ↔ n ∉ c.map Prod.fst := by
  rw [hasSection]
  cases hlk : lookupSec c n with
  | none => simpa using (lookupSec_eq_none_iff c n).mp hlk
  | some es =>
      simp only [Option.isSome_some]
      constructor
      · intro hc; exact absurd hc (by simp)
      · intro hnot
        exact absurd hlk (by rw [(lookupSec_eq_none_iff c n).mpr hnot]; simp)

theorem names_mono_setOption (c : Sections) (sec k v : String) :
    ∀ n, n ∈ c.map Prod.fst → n ∈ (setOption c sec k v).map Prod.fst := by
  intro n hn
  rw [map_fst_setOption]
  exact hn

theorem names_nodup_setOption (c : Sections) (sec k v : String)
    (hnd : (c.map Prod.fst).Nodup) : ((setOption c sec k v).map Prod.fst).Nodup := by
  rw [map_fst_setOption]
  exact hnd

theorem names_mono_ensure (c : Sections) (nm : String) :
    ∀ n, n ∈ c.map Prod.fst →
      n ∈ (if hasSection c nm then c else addSection c nm).map Prod.fst := by
  intro n hn
  by_cases hb : hasSection c nm
  · rw [if_pos hb]; exact hn
  · rw [if_neg hb, addSection, List.map_append]
    exact List.mem_append_left _ hn

theorem names_nodup_ensure (c : Sections) (nm : String)
    (hnd : (c.map Prod.fst).Nodup) :
    ((if hasSection c nm then c else addSection c nm).map Prod.fst).Nodup := by
  by_cases hb : hasSection c nm
  · rw [if_pos hb]; exact hnd
  · have hnot : nm ∉ c.map Prod.fst := (hasSection_eq_false_iff c nm).mp (by simpa using hb)
    rw [if_neg hb, addSection, List.map_append]
    refine hnd.append (by simp) ?_
    intro x hx hx2
    simp only [List.map_cons, List.map_nil, List.mem_singleton] at hx2
    exact hnot (hx2 ▸ hx)

theorem readLine_names_mono (s s' : ReadState) (line : String)
    (h : readLine s line = .ok s') :
    ∀ n, n ∈ s.store.map Prod.fst → n ∈ s'.store.map Prod.fst := by
  simp only [readLine] at h
  split at h
  · cases h; exact fun n hn => hn
  · split at h
    · cases h; exact fun n hn => hn
    · split at h
      · split at h
        · exact absurd h (by simp)
        · cases h
          exact fun n hn => names_mono_ensure _ _ n hn
      · split at h
        · exact absurd h (by simp)
        · split at h
          · exact absurd h (by simp)
          · split at h
            · exact absurd h (by simp)
            · cases h
              exact fun n hn => names_mono_setOption _ _ _ _ n hn

theorem readLine_names_nodup (s s' : ReadState) (line : String)
    (h : readLine s line = .ok s') (hnd : (s.store.map Prod.fst).Nodup) :
    (s'.store.map Prod.fst).Nodup := by
  simp only [readLine] at h
  split at h
  · cases h; exact hnd
  · split at h
    · cases h; exact hnd
    · split at h
      · split at h
        · exact absurd h (by simp)
        · cases h
          exact names_nodup_ensure _ _ hnd
      · split at h
        · exact absurd h (by simp)
        · split at h
          · exact absurd h (by simp)
          · split at h
            · exact absurd h (by simp)
            · cases h
              exact names_nodup_setOption _ _ _ _ hnd

theorem foldlM_readLine_names_mono (lines : List String) (s s' : ReadState)
    (h : lines.foldlM readLine s = .ok s') :
    ∀ n, n ∈ s.store.map Prod.fst → n ∈ s'.store.map Prod.fst := by
  induction lines generalizing s with
  | nil =>
      rw [foldlM_readLine_nil] at h
      cases h
      exact fun n hn => hn
  | cons hd tl ih =>
      rw [foldlM_readLine_cons] at h
      cases h1 : readLine s hd with
      | error e => rw [h1] at h; exact absurd h (by simp)
      | ok s1 =>
          rw [h1] at h
          exact fun n hn => ih s1 h n (readLine_names_mono s s1 hd h1 n hn)

theorem foldlM_readLine_names_nodup (lines : List String) (s s' : ReadState)
    (h : lines.foldlM readLine s = .ok s') (hnd : (s.store.map Prod.fst).Nodup) :
    (s'.store.map Prod.fst).Nodup := by
  induction lines generalizing s with
  | nil =>
      rw [foldlM_readLine_nil] at h
      cases h
      exact hnd
  | cons hd tl ih =>
      rw [foldlM_readLine_cons] at h
      cases h1 : readLine s hd with
      | error e => rw [h1] at h; exact absurd h (by simp)
      | ok s1 =>
          rw [h1] at h
          exact ih s1 h (readLine_names_nodup s s1 hd h1 hnd)

theorem readLinesInto_ok (store : Sections) (lines : List String) (st : Sections)
    (h : readLinesInto store lines = .ok st) :
    ∃ s', lines.foldlM readLine ⟨store, none, [], []⟩ = .ok s' ∧ s'.store = st := by
  unfold readLinesInto at h
  cases hf : lines.foldlM readLine ⟨store, none, [], []⟩ with
  | error e => rw [hf] at h; exact absurd h (by simp [Except.map])
  | ok s' =>
      rw [hf] at h
      simp only [Except.map, Except.ok.injEq] at h
      exact ⟨s', rfl, h⟩

theorem readInto_names_mono (store : Sections) (content : String) (st : Sections)
    (h : readInto store content = .ok st) :
    ∀ n, n ∈ store.map Prod.fst → n ∈ st.map Prod.fst := by
  obtain ⟨s', hf, hs⟩ := readLinesInto_ok store (splitLines content) st h
  intro n hn
  exact hs ▸ foldlM_readLine_names_mono (splitLines content) _ s' hf n hn

theorem readInto_names_nodup (store : Sections) (content : String) (st : Sections)
    (h : readInto store content = .ok st) (hnd : (store.map Prod.fst).Nodup) :
    (st.map Prod.fst).Nodup := by
  obtain ⟨s', hf, hs⟩ := readLinesInto_ok store (splitLines content) st h
  exact hs ▸ foldlM_readLine_names_nodup (splitLines content) _ s' hf hnd

theorem get_profiles_eq (m : Manager) (w : World) (st : Sections)
    (h : readInto m.config w.file = .ok st) :
    get_profiles m w =
      .ok ((st.map Prod.fst).filter (fun sec => sec != "default"), ⟨st⟩) := by
  unfold get_profiles
  rw [load_ok m w st h]

/-- C7: against a freshly constructed manager (as the view layer always
does), `get_profiles` succeeds exactly when the file parses, and returns the
parsed store's section names without `"default"`, in on-disk section order,
and without duplicates. -/
theorem C7_get_profiles_spec (w : World) (st : Sections)
    (h : readInto ([] : Sections) w.file = .ok st) :
    get_profiles ⟨[]⟩ w =
      .ok ((st.map Prod.fst).filter (fun sec => sec != "default"), ⟨st⟩) ∧
    ((st.map Prod.fst).filter (fun sec => sec != "default")).Nodup := by
  refine ⟨get_profiles_eq ⟨[]⟩ w st h, ?_⟩
  exact (readInto_names_nodup [] w.file st h (by simp)).filter _

theorem C7_get_profiles_spec_witness :
    get_profiles ⟨[]⟩ ⟨"[default]\na = 1\n\n[alpha]\nk = v\n\n[beta]\n\n", none⟩ =
      .ok (((([("default", [("a", "1")]), ("alpha", [("k", "v")]),
        ("beta", [])] : Sections).map Prod.fst).filter (fun sec => sec != "default")),
        ⟨[("default", [("a", "1")]), ("alpha", [("k", "v")]), ("beta", [])]⟩) ∧
    ((([("default", [("a", "1")]), ("alpha", [("k", "v")]),
        ("beta", [])] : Sections).map Prod.fst).filter (fun sec => sec != "default")).Nodup :=
  C7_get_profiles_spec ⟨"[default]\na = 1\n\n[alpha]\nk = v\n\n[beta]\n\n", none⟩
    [("default", [("a", "1")]), ("alpha", [("k", "v")]), ("beta", [])] rfl

/-- C5, amended: every operation does re-read the file before answering,
but the read merges the file content into the manager's shared in-memory
store rather than replacing it: the answer is computed from the merged
store, and every section already held in memory is still present in it —
so externally added or updated sections are reflected, while externally
deleted sections survive from the previous in-memory state. -/
theorem C5_amended_reload_merge (m : Manager) (w : World) (st : Sections)
    (h : readInto m.config w.file = .ok st) :
    get_profiles m w =
      .ok ((st.map Prod.fst).filter (fun sec => sec != "default"), ⟨st⟩) ∧
    ∀ n ∈ m.config.map Prod.fst, n ∈ st.map Prod.fst :=
  ⟨get_profiles_eq m w st h, readInto_names_mono m.config w.file st h⟩

theorem C5_amended_reload_merge_witness :
    get_profiles ⟨[("alpha", [("k", "v")])]⟩ ⟨"", none⟩ =
      .ok (((([("alpha", [("k", "v")])] : Sections).map Prod.fst).filter
        (fun sec => sec != "default")), ⟨[("alpha", [("k", "v")])]⟩) ∧
    ∀ n ∈ ([("alpha", [("k", "v")])] : Sections).map Prod.fst,
      n ∈ ([("alpha", [("k", "v")])] : Sections).map Prod.fst :=
  C5_amended_reload_merge ⟨[("alpha", [("k", "v")])]⟩ ⟨"", none⟩
    [("alpha", [("k", "v")])] rfl

/-- C1, counterexample: with the claim's quantification `set_default` may be
called with `sourceProfile = "default"` when a `default` section exists; the
section then held the entry `a = 1`, the call completes, and the persisted
`default` section has no entries at all — not the entry mapping the source
held at the time of the call. -/
theorem C1_counterexample :
    readInto [] "[default]\na = 1\n\n" = .ok [("default", [("a", "1")])] ∧
    set_default ⟨[]⟩ ⟨"[default]\na = 1\n\n", none⟩ "default" =
      .ok (⟨[("default", [])]⟩, ⟨"[default]\n\n", some "[default]\na = 1\n\n"⟩,
           [.copyToBak "[default]\na = 1\n\n", .writeFile "[default]\n\n"]) ∧
    readInto [] "[default]\n\n" = .ok [("default", [])] ∧
    ([] : Entries) ≠ [("a", "1")] :=
  ⟨rfl, rfl, rfl, by decide⟩

/-- C2: the code performs no validation of the profile name: called with the
name `"default"` it silently creates or overwrites the `default` alias
section and writes the store, instead of rejecting the call and leaving the
store untouched. -/
theorem C2_add_profile_default_not_rejected :
    add_profile ⟨[]⟩ ⟨"", none⟩ "default" "AK" "SK" "" =
      .ok (⟨[("default", [("aws_access_key_id", "AK"), ("aws_secret_access_key", "SK")])]⟩,
           ⟨"[default]\naws_access_key_id = AK\naws_secret_access_key = SK\n\n", some ""⟩,
           [.copyToBak "",
            .writeFile "[default]\naws_access_key_id = AK\naws_secret_access_key = SK\n\n"]) :=
  rfl

/-- C4, counterexample: option keys are not case-sensitive — they are
normalised to lower case on read, so a store holding the key `A` does not
survive a save/load round trip unchanged. -/
theorem C4_counterexample_case :
    writeStore [("s", [("A", "1")])] = "[s]\nA = 1\n\n" ∧
    readInto [] "[s]\nA = 1\n\n" = .ok [("s", [("a", "1")])] ∧
    ([("s", [("a", "1")])] : Sections) ≠ [("s", [("A", "1")])] :=
  ⟨rfl, rfl, by decide⟩

/-- C5, counterexample: the shared configuration object carries state across
operations and a read only merges.  After listing profiles against a file
holding section `alpha`, the file is externally replaced by an empty file;
the next listing still reports `alpha`, though the claim requires an
externally deleted section to be absent from the next result. -/
theorem C5_counterexample_stale :
    get_profiles ⟨[]⟩ ⟨"[alpha]\nk = v\n\n", none⟩ =
      .ok (["alpha"], ⟨[("alpha", [("k", "v")])]⟩) ∧
    get_profiles ⟨[("alpha", [("k", "v")])]⟩ ⟨"", none⟩ =
      .ok (["alpha"], ⟨[("alpha", [("k", "v")])]⟩) ∧
    (["alpha"] : List String) ≠ [] :=
  ⟨rfl, rfl, by decide⟩

theorem data_append (s t : String) : (s ++ t).data = s.data ++ t.data := by
  cases s
  cases t
  rfl

theorem entryLine_data (k v : String) :
    (entryLine k v).data = k.data ++ (' ' :: '=' :: ' ' :: v.data) := by
  show ((k ++ " = ") ++ v).data = _
  rw [data_append, data_append]
  simp

theorem headerLine_data (n : String) :
    ("[" ++ n ++ "]").data = '[' :: (n.data ++ [']']) := by
  show (("[" ++ n) ++ "]").data = _
  rw [data_append, data_append]
  simp

theorem lstripCh_cons_of_not_ws (c : Char) (cs : List Char) (h : c.isWhitespace = false) :
    lstripCh (c :: cs) = c :: cs := by
  simp [lstripCh, List.dropWhile_cons, h]

theorem lstripCh_cons_of_ws (c : Char) (cs : List Char) (h : c.isWhitespace = true) :
    lstripCh (c :: cs) = lstripCh cs := by
  simp [lstripCh, List.dropWhile_cons, h]

theorem length_dropWhile_le (p : Char → Bool) (l : List Char) :
    (l.dropWhile p).length ≤ l.length := by
  induction l with
  | nil => simp
  | cons c rest ih =>
      rw [List.dropWhile_cons]
      by_cases h : p c = true
      · rw [if_pos h]
        calc (rest.dropWhile p).length ≤ rest.length := ih
        _ ≤ (c :: rest).length := by simp
      · rw [if_neg h]

theorem not_ws_head_of_lstrip_id (c : Char) (cs : List Char)
    (h : lstripCh (c :: cs) = c :: cs) : c.isWhitespace = false := by
  by_cases hw : c.isWhitespace = true
  · rw [lstripCh, List.dropWhile_cons, if_pos hw] at h
    have hlen := congrArg List.length h
    have hle := length_dropWhile_le Char.isWhitespace cs
    simp at hlen
    omega
  · simpa using hw

theorem not_ws_head_of_rstrip_id (c : Char) (tail0 cs : List Char)
    (h : rstripCh cs = cs) (hrev : cs.reverse = c :: tail0) :
    c.isWhitespace = false := by
  by_cases hw : c.isWhitespace = true
  · rw [rstripCh, hrev, List.dropWhile_cons, if_pos hw] at h
    have hlen := congrArg List.length h
    have hle := length_dropWhile_le Char.isWhitespace tail0
    have hlen2 : cs.length = tail0.length + 1 := by
      have := congrArg List.length hrev
      simpa using this
    simp at hlen
    omega
  · simpa using hw

theorem rstripCh_append_of_ne (l1 l2 : List Char) (h2 : rstripCh l2 = l2) (hne : l2 ≠ []) :
    rstripCh (l1 ++ l2) = l1 ++ l2 := by
  obtain ⟨c, cs, hrev⟩ : ∃ c cs, l2.reverse = c :: cs := by
    cases hr : l2.reverse with
    | nil =>
        have : l2 = [] := by simpa using congrArg List.reverse hr
        exact absurd this hne
    | cons c cs => exact ⟨c, cs, rfl⟩
  have hcw : c.isWhitespace = false := not_ws_head_of_rstrip_id c cs l2 h2 hrev
  have hl2 : l2 = cs.reverse ++ [c] := by
    have := congrArg List.reverse hrev
    simpa using this
  rw [rstripCh, List.reverse_append, hrev, List.cons_append, List.dropWhile_cons,
      if_neg (by simp [hcw])]
  rw [hl2]
  simp [List.append_assoc]

theorem rstripCh_append_ws (l : List Char) (c : Char) (h : c.isWhitespace = true) :
    rstripCh (l ++ [c]) = rstripCh l := by
  rw [rstripCh, rstripCh, List.reverse_append]
  simp [List.dropWhile_cons, h]

theorem findDelim_cons_no (c : Char) (cs : List Char) (h : ¬c = '=' ∧ ¬c = ':') :
    findDelim (c :: cs) = (findDelim cs).map (fun p => (c :: p.1, p.2)) := by
  rw [findDelim, if_neg (fun hor => hor.elim h.1 h.2)]

theorem findDelim_append_no (l cs : List Char)
    (h : ∀ c ∈ l, ¬c = '=' ∧ ¬c = ':') :
    findDelim (l ++ cs) = (findDelim cs).map (fun p => (l ++ p.1, p.2)) := by
  induction l with
  | nil => cases hf : findDelim cs <;> simp [hf]
  | cons c rest ih =>
      rw [List.cons_append, findDelim_cons_no c _ (h c (by simp)),
          ih (fun c hm => h c (by simp [hm]))]
      cases hf : findDelim cs <;> simp [hf]

theorem parseHeader_cons_ne (c : Char) (rest : List Char) (h : ¬c = '[') :
    parseHeader (c :: rest) = none := by
  rw [parseHeader, if_neg h]

theorem parseHeader_header (n : String) (hne : n.data ≠ []) :
    parseHeader ('[' :: (n.data ++ [']'])) = some n := by
  have h1 : (n.data ++ [']']).reverse.dropWhile (fun x => x != ']') = ']' :: n.data.reverse := by
    rw [List.reverse_append]
    simp [List.dropWhile_cons]
  rw [parseHeader, if_pos rfl, h1]
  have h2 : ¬n.data.reverse = [] := by simpa using hne
  simp only [h2, if_false, ite_false, List.reverse_reverse]

theorem mk_data (s : String) : (⟨s.data⟩ : String) = s := rfl

theorem parseOption_entry_nonempty (k v : String) (hk : validKey k) (hv : validValue v)
    (hvne : v.data ≠ []) :
    parseOption (k.data ++ (' ' :: '=' :: ' ' :: v.data)) = some (k, v) := by
  obtain ⟨hk1, hk2, _, hk4, _, _, _, hk8⟩ := hk
  obtain ⟨hv1, hv2, _⟩ := hv
  have hfd : findDelim (k.data ++ (' ' :: '=' :: ' ' :: v.data)) =
      some (k.data ++ [' '], ' ' :: v.data) := by
    rw [findDelim_append_no _ _ (fun c hm => ⟨(hk8 c hm).1, (hk8 c hm).2.1⟩),
        findDelim_cons_no ' ' _ (by decide), findDelim, if_pos (Or.inl rfl)]
    rfl
  have hkey : rstripCh (k.data ++ [' ']) = k.data := by
    rw [rstripCh_append_ws _ _ (by decide), hk4]
  have hstrip : stripCh (' ' :: v.data) = v.data := by
    rw [stripCh, show (' ' :: v.data) = [' '] ++ v.data from rfl,
        rstripCh_append_of_ne [' '] v.data hv2 hvne,
        show ([' '] ++ v.data) = ' ' :: v.data from rfl,
        lstripCh_cons_of_ws _ _ (by decide), hv1]
  simp only [parseOption, hfd, hkey, hstrip, hk1, if_false, ite_false, mk_data, hk2]

theorem parseOption_entry_empty (k : String) (hk : validKey k) :
    parseOption (k.data ++ [' ', '=']) = some (k, "") := by
  obtain ⟨hk1, hk2, _, hk4, _, _, _, hk8⟩ := hk
  have hfd : findDelim (k.data ++ [' ', '=']) = some (k.data ++ [' '], []) := by
    rw [findDelim_append_no _ _ (fun c hm => ⟨(hk8 c hm).1, (hk8 c hm).2.1⟩),
        findDelim_cons_no ' ' _ (by decide), findDelim, if_pos (Or.inl rfl)]
    rfl
  have hkey : rstripCh (k.data ++ [' ']) = k.data := by
    rw [rstripCh_append_ws _ _ (by decide), hk4]
  simp only [parseOption, hfd, hkey, hk1, if_false, ite_false, mk_data, hk2]
  rfl

theorem strip_entry_nonempty (k v : String) (hk : validKey k) (hv : validValue v)
    (hvne : v.data ≠ []) :
    stripCh (k.data ++ (' ' :: '=' :: ' ' :: v.data)) =
      k.data ++ (' ' :: '=' :: ' ' :: v.data) := by
  obtain ⟨hk1, _, hk3, _, _, _, _, _⟩ := hk
  obtain ⟨_, hv2, _⟩ := hv
  have hre : k.data ++ (' ' :: '=' :: ' ' :: v.data) = (k.data ++ [' ', '=', ' ']) ++ v.data := by
    simp
  rw [stripCh, hre, rstripCh_append_of_ne _ _ hv2 hvne, ← hre]
  obtain ⟨c, rest, hcr⟩ : ∃ c rest, k.data = c :: rest := by
    cases hkd : k.data with
    | nil => exact absurd hkd hk1
    | cons c rest => exact ⟨c, rest, rfl⟩
  have hcw : c.isWhitespace = false := not_ws_head_of_lstrip_id c rest (hcr ▸ hk3)
  rw [hcr, List.cons_append, lstripCh_cons_of_not_ws _ _ hcw]

theorem strip_entry_empty (k : String) (hk : validKey k) :
    stripCh (k.data ++ [' ', '=', ' ']) = k.data ++ [' ', '='] := by
  obtain ⟨hk1, _, hk3, _, _, _, _, _⟩ := hk
  have hre : k.data ++ ([' ', '=', ' '] : List Char) = (k.data ++ [' ', '=']) ++ [' '] := by simp
  have hre2 : k.data ++ ([' ', '='] : List Char) = (k.data ++ [' ']) ++ ['='] := by simp
  rw [stripCh, hre, rstripCh_append_ws _ _ (by decide), hre2,
      rstripCh_append_of_ne _ ['='] (by decide) (by decide), ← hre2]
  obtain ⟨c, rest, hcr⟩ : ∃ c rest, k.data = c :: rest := by
    cases hkd : k.data with
    | nil => exact absurd hkd hk1
    | cons c rest => exact ⟨c, rest, rfl⟩
  have hcw : c.isWhitespace = false := not_ws_head_of_lstrip_id c rest (hcr ▸ hk3)
  rw [hcr, List.cons_append, lstripCh_cons_of_not_ws _ _ hcw]

theorem readLine_entry_aux (s : ReadState) (sec k v : String) (L : List Char)
    (hcur : s.cursect = some sec)
    (hkne : k.data ≠ [])
    (hk5 : k.data.head? ≠ some '[') (hk6 : k.data.head? ≠ some '#')
    (hk7 : k.data.head? ≠ some ';')
    (hstrip : stripCh (entryLine k v).data = k.data ++ L)
    (hpo : parseOption (k.data ++ L) = some (k, v))
    (hdup : s.optsAdded.contains (sec, k) = false) :
    readLine s (entryLine k v) =
      .ok { s with store := setOption s.store sec k v,
                   optsAdded := (sec, k) :: s.optsAdded } := by
  obtain ⟨c, rest, hcr⟩ : ∃ c rest, k.data = c :: rest := by
    cases hkd : k.data with
    | nil => exact absurd hkd hkne
    | cons c rest => exact ⟨c, rest, rfl⟩
  have hh : (k.data ++ L).head? = some c := by rw [hcr]; rfl
  have hne : ¬(k.data ++ L = []) := by rw [hcr]; simp
  have hcomment : ¬((k.data ++ L).head? = some '#' ∨ (k.data ++ L).head? = some ';') := by
    intro hor
    rcases hor with hcm | hcm
    · rw [hh] at hcm
      exact hk6 (by rw [hcr, ← hcm]; rfl)
    · rw [hh] at hcm
      exact hk7 (by rw [hcr, ← hcm]; rfl)
  have hcbr : ¬c = '[' := by
    intro he
    exact hk5 (by rw [hcr, he]; rfl)
  have hph : parseHeader (k.data ++ L) = none := by
    rw [hcr, List.cons_append]
    exact parseHeader_cons_ne c _ hcbr
  simp only [readLine, hstrip, if_neg hne, if_neg hcomment, hph, hcur, hpo, hdup,
    Bool.false_eq_true, if_false, ite_false]

theorem readLine_entry (s : ReadState) (sec k v : String)
    (hcur : s.cursect = some sec)
    (hk : validKey k) (hv : validValue v)
    (hdup : s.optsAdded.contains (sec, k) = false) :
    readLine s (entryLine k v) =
      .ok { s with store := setOption s.store sec k v,
                   optsAdded := (sec, k) :: s.optsAdded } := by
  by_cases hvne : v.data = []
  · have hveq : v = "" := by
      have hv2 : v = ⟨v.data⟩ := rfl
      rw [hvne] at hv2
      exact hv2
    subst hveq
    refine readLine_entry_aux s sec k "" [' ', '='] hcur hk.1 hk.2.2.2.2.1 hk.2.2.2.2.2.1
      hk.2.2.2.2.2.2.1 ?_ (parseOption_entry_empty k hk) hdup
    rw [entryLine_data]
    exact strip_entry_empty k hk
  · refine readLine_entry_aux s sec k v (' ' :: '=' :: ' ' :: v.data) hcur hk.1
      hk.2.2.2.2.1 hk.2.2.2.2.2.1 hk.2.2.2.2.2.2.1 ?_
      (parseOption_entry_nonempty k v hk hv hvne) hdup
    rw [entryLine_data]
    exact strip_entry_nonempty k v hk hv hvne

theorem readLine_header (s : ReadState) (n : String) (hn : validName n)
    (hdup : s.secsAdded.contains n = false) :
    readLine s ("[" ++ n ++ "]") =
      .ok ⟨if hasSection s.store n then s.store else addSection s.store n,
           some n, n :: s.secsAdded, s.optsAdded⟩ := by
  have hstrip : stripCh ("[" ++ n ++ "]").data = '[' :: (n.data ++ [']']) := by
    rw [headerLine_data,
        show '[' :: (n.data ++ [']']) = ('[' :: n.data) ++ [']'] by simp,
        stripCh, rstripCh_append_of_ne _ [']'] (by decide) (by decide),
        show ('[' :: n.data) ++ [']'] = '[' :: (n.data ++ [']']) by simp,
        lstripCh_cons_of_not_ws _ _ (by decide)]
  have hne : ¬('[' :: (n.data ++ [']']) = []) := by simp
  have hcomment : ¬(('[' :: (n.data ++ [']'])).head? = some '#' ∨
      ('[' :: (n.data ++ [']'])).head? = some ';') := by
    intro hor
    rcases hor with hcm | hcm <;> simp at hcm
  have hph : parseHeader ('[' :: (n.data ++ [']'])) = some n := parseHeader_header n hn.1
  simp only [readLine, hstrip, if_neg hne, if_neg hcomment, hph, hdup,
    Bool.false_eq_true, if_false, ite_false]

theorem readLine_blank (s : ReadState) : readLine s "" = .ok s := rfl

theorem splitLinesCh_append (l s : List Char) (h : '\n' ∉ l) :
    splitLinesCh (l ++ '\n' :: s) = l :: splitLinesCh s := by
  induction l with
  | nil => simp [splitLinesCh]
  | cons c rest ih =>
      have hc : ¬c = '\n' := fun he => h (List.mem_cons.mpr (Or.inl he.symm))
      rw [List.cons_append]
      simp only [splitLinesCh, if_neg hc,
        ih (fun hm => h (List.mem_cons_of_mem c hm))]

theorem splitLines_unlines (ls : List String) (h : ∀ l ∈ ls, '\n' ∉ l.data) :
    splitLines (unlines ls) = ls ++ [""] := by
  induction ls with
  | nil => rfl
  | cons l rest ih =>
      have hdata : (l ++ "\n" ++ unlines rest).data = l.data ++ '\n' :: (unlines rest).data := by
        rw [data_append, data_append]
        simp
      rw [unlines, splitLines, hdata, splitLinesCh_append _ _ (h l (by simp))]
      simp only [List.map_cons, mk_data]
      rw [show (splitLinesCh (unlines rest).data).map (fun l => (⟨l⟩ : String)) =
        splitLines (unlines rest) from rfl]
      rw [ih (fun l hm => h l (by simp [hm]))]
      rfl

theorem foldlM_readLine_cons_ok (s s1 : ReadState) (hd : String) (tl : List String)
    (h : readLine s hd = .ok s1) :
    (hd :: tl).foldlM readLine s = tl.foldlM readLine s1 := by
  rw [foldlM_readLine_cons, h]

theorem foldlM_readLine_append (l1 l2 : List String) (s : ReadState) :
    (l1 ++ l2).foldlM readLine s =
      match l1.foldlM readLine s with
      | .ok s1 => l2.foldlM readLine s1
      | .error e => .error e := by
  induction l1 generalizing s with
  | nil => rw [List.nil_append, foldlM_readLine_nil]
  | cons hd tl ih =>
      rw [List.cons_append, foldlM_readLine_cons, foldlM_readLine_cons]
      cases readLine s hd with
      | error e => rfl
      | ok s1 => exact ih s1

theorem foldlM_readLine_blank_single (s : ReadState) :
    ([""] : List String).foldlM readLine s = .ok s := by
  rw [foldlM_readLine_cons_ok _ _ _ _ (readLine_blank s), foldlM_readLine_nil]

theorem contains_eq_false {α : Type} [BEq α] [LawfulBEq α] (l : List α) (a : α)
    (h : a ∉ l) : l.contains a = false := by
  cases hc : l.contains a
  · rfl
  · exact absurd (by simpa using hc) h

theorem setOption_append_last (front : Sections) (sec : String) (done : Entries) (k v : String)
    (hfr : lookupSec front sec = none) :
    setOption (front ++ [(sec, done)]) sec k v =
      front ++ [(sec, setEntry done (optionxform k) v)] := by
  induction front with
  | nil => simp [setOption]
  | cons hd tl ih =>
      obtain ⟨m, e⟩ := hd
      by_cases hm : m = sec
      · rw [lookupSec, if_pos hm] at hfr
        exact absurd hfr (by simp)
      · rw [lookupSec, if_neg hm] at hfr
        simp only [List.cons_append, setOption, if_neg hm]
        exact congrArg (fun l => (m, e) :: l) (ih hfr)

theorem lookupEntry_eq_some_of_mem_nodup (es : Entries) (k v : String)
    (hnd : (es.map Prod.fst).Nodup) (hm : (k, v) ∈ es) : lookupEntry es k = some v := by
  induction es with
  | nil => simp at hm
  | cons hd tl ih =>
      obtain ⟨k0, v0⟩ := hd
      simp only [List.map_cons, List.nodup_cons] at hnd
      rcases List.mem_cons.mp hm with h | h
      · rw [Prod.mk.injEq] at h
        rw [lookupEntry, if_pos h.1.symm, h.2]
      · have hk0 : k0 ≠ k := by
          intro he
          exact hnd.1 (he ▸ (List.mem_map.mpr ⟨(k, v), h, rfl⟩))
        rw [lookupEntry, if_neg hk0, ih hnd.2 h]

theorem run_entries_fresh : ∀ (es : Entries) (front : Sections) (sec : String)
    (done : Entries) (secsA : List String) (optsA : List (String × String)),
    lookupSec front sec = none →
    (∀ kv ∈ es, validKey kv.1 ∧ validValue kv.2) →
    (es.map Prod.fst).Nodup →
    (∀ kv ∈ es, lookupEntry done kv.1 = none) →
    (∀ kv ∈ es, (sec, kv.1) ∉ optsA) →
    (es.map (fun kv => entryLine kv.1 kv.2)).foldlM readLine
        ⟨front ++ [(sec, done)], some sec, secsA, optsA⟩ =
      .ok ⟨front ++ [(sec, done ++ es)], some sec, secsA,
           (es.map (fun kv => (sec, kv.1))).reverse ++ optsA⟩ := by
  intro es
  induction es with
  | nil =>
      intro front sec done secsA optsA _ _ _ _ _
      simp only [List.map_nil, foldlM_readLine_nil, List.append_nil, List.reverse_nil,
        List.nil_append]
  | cons hd tl ih =>
      intro front sec done secsA optsA hfr hval hnd hdone hdup
      obtain ⟨k, v⟩ := hd
      have hvk := (hval (k, v) (by simp)).1
      have hstep := readLine_entry ⟨front ++ [(sec, done)], some sec, secsA, optsA⟩ sec k v rfl
        hvk (hval (k, v) (by simp)).2
        (contains_eq_false _ _ (hdup (k, v) (by simp)))
      rw [List.map_cons, foldlM_readLine_cons_ok _ _ _ _ hstep]
      show (tl.map (fun kv => entryLine kv.1 kv.2)).foldlM readLine
          ⟨setOption (front ++ [(sec, done)]) sec k v, some sec, secsA,
           (sec, k) :: optsA⟩ = _
      rw [setOption_append_last _ _ _ _ _ hfr, hvk.2.1,
          setEntry_append_of_lookup_none _ _ _ (hdone (k, v) (by simp))]
      simp only [List.map_cons, List.nodup_cons] at hnd
      have hdone2 : ∀ kv ∈ tl, lookupEntry (done ++ [(k, v)]) kv.1 = none := by
        intro kv hm
        rw [lookupEntry_append_of_none _ _ _ (hdone kv (List.mem_cons_of_mem _ hm))]
        have hne : ¬k = kv.1 := by
          intro he
          exact hnd.1 (he ▸ (List.mem_map.mpr ⟨kv, hm, rfl⟩))
        simp [lookupEntry, hne]
      have hdup2 : ∀ kv ∈ tl, (sec, kv.1) ∉ ((sec, k) :: optsA) := by
        intro kv hm hmem
        rcases List.mem_cons.mp hmem with he | he
        · rw [Prod.mk.injEq] at he
          exact hnd.1 (he.2 ▸ (List.mem_map.mpr ⟨kv, hm, rfl⟩))
        · exact hdup kv (List.mem_cons_of_mem _ hm) he
      rw [ih front sec (done ++ [(k, v)]) secsA ((sec, k) :: optsA) hfr
        (fun kv hm => hval kv (List.mem_cons_of_mem _ hm)) hnd.2 hdone2 hdup2]
      simp [List.append_assoc]

theorem run_entries_same : ∀ (es : Entries) (cfg : Sections) (sec : String)
    (full : Entries) (secsA : List String) (optsA : List (String × String)),
    lookupSec cfg sec = some full →
    (∀ kv ∈ es, lookupEntry full kv.1 = some kv.2) →
    (∀ kv ∈ es, validKey kv.1 ∧ validValue kv.2) →
    (es.map Prod.fst).Nodup →
    (∀ kv ∈ es, (sec, kv.1) ∉ optsA) →
    (es.map (fun kv => entryLine kv.1 kv.2)).foldlM readLine ⟨cfg, some sec, secsA, optsA⟩ =
      .ok ⟨cfg, some sec, secsA, (es.map (fun kv => (sec, kv.1))).reverse ++ optsA⟩ := by
  intro es
  induction es with
  | nil =>
      intro cfg sec full secsA optsA _ _ _ _ _
      simp only [List.map_nil, foldlM_readLine_nil, List.reverse_nil, List.nil_append]
  | cons hd tl ih =>
      intro cfg sec full secsA optsA hlk hsub hval hnd hdup
      obtain ⟨k, v⟩ := hd
      have hvk := (hval (k, v) (by simp)).1
      have hstep := readLine_entry ⟨cfg, some sec, secsA, optsA⟩ sec k v rfl
        hvk (hval (k, v) (by simp)).2
        (contains_eq_false _ _ (hdup (k, v) (by simp)))
      rw [List.map_cons, foldlM_readLine_cons_ok _ _ _ _ hstep]
      show (tl.map (fun kv => entryLine kv.1 kv.2)).foldlM readLine
          ⟨setOption cfg sec k v, some sec, secsA, (sec, k) :: optsA⟩ = _
      have hsame : setOption cfg sec k v = cfg := by
        refine setOption_eq_of_lookup cfg sec k v full hlk ?_
        rw [hvk.2.1]
        exact setEntry_eq_of_lookup _ _ _ (hsub (k, v) (by simp))
      rw [hsame]
      simp only [List.map_cons, List.nodup_cons] at hnd
      have hdup2 : ∀ kv ∈ tl, (sec, kv.1) ∉ ((sec, k) :: optsA) := by
        intro kv hm hmem
        rcases List.mem_cons.mp hmem with he | he
        · rw [Prod.mk.injEq] at he
          exact hnd.1 (he.2 ▸ (List.mem_map.mpr ⟨kv, hm, rfl⟩))
        · exact hdup kv (List.mem_cons_of_mem _ hm) he
      rw [ih cfg sec full secsA ((sec, k) :: optsA) hlk
        (fun kv hm => hsub kv (List.mem_cons_of_mem _ hm))
        (fun kv hm => hval kv (List.mem_cons_of_mem _ hm)) hnd.2 hdup2]
      simp [List.append_assoc]

theorem writeStoreLines_no_newline (st : Sections) (hv : validStore st) :
    ∀ l ∈ writeStoreLines st, '\n' ∉ l.data := by
  intro l hl
  rw [writeStoreLines] at hl
  simp only [List.mem_flatten, List.mem_map] at hl
  obtain ⟨ls, ⟨p, hp, hpe⟩, hlin⟩ := hl
  subst hpe
  rw [sectionLines] at hlin
  rcases List.mem_cons.mp hlin with hh | ht
  · subst hh
    rw [headerLine_data]
    intro hmem
    simp only [List.mem_cons, List.mem_append, List.mem_singleton] at hmem
    rcases hmem with h1 | h2 | h3
    · exact absurd h1 (by decide)
    · exact (hv.2 p hp).1.2 h2
    · exact absurd h3 (by decide)
  · rcases List.mem_append.mp ht with he | hb
    · obtain ⟨kv, hkv, hkve⟩ := List.mem_map.mp he
      subst hkve
      rw [entryLine_data]
      intro hmem
      have hkval := (hv.2 p hp).2.2 kv hkv
      simp only [List.mem_append, List.mem_cons] at hmem
      rcases hmem with h1 | h2 | h3 | h4 | h5
      · exact ((hkval.1.2.2.2.2.2.2.2 '\n' h1).2.2) rfl
      · exact absurd h2 (by decide)
      · exact absurd h3 (by decide)
      · exact absurd h4 (by decide)
      · exact hkval.2.2.2 h5
    · simp only [List.mem_singleton] at hb
      subst hb
      simp

theorem run_store_fresh : ∀ (rest front : Sections) (cur : Option String)
    (secsA : List String) (optsA : List (String × String)),
    (rest.map Prod.fst).Nodup →
    (∀ p ∈ rest, validName p.1 ∧ validEntries p.2) →
    (∀ p ∈ rest, lookupSec front p.1 = none) →
    (∀ p ∈ rest, p.1 ∉ secsA) →
    (∀ p ∈ rest, ∀ kv ∈ p.2, (p.1, kv.1) ∉ optsA) →
    ∃ cur2 secsA2 optsA2,
      (writeStoreLines rest).foldlM readLine ⟨front, cur, secsA, optsA⟩ =
        .ok ⟨front ++ rest, cur2, secsA2, optsA2⟩ := by
  intro rest
  induction rest with
  | nil =>
      intro front cur secsA optsA _ _ _ _ _
      refine ⟨cur, secsA, optsA, ?_⟩
      simp only [writeStoreLines, List.map_nil, List.flatten_nil, foldlM_readLine_nil,
        List.append_nil]
  | cons hd tl ih =>
      intro front cur secsA optsA hnd hval hfr hsA hoA
      obtain ⟨n, es⟩ := hd
      have hlines : writeStoreLines ((n, es) :: tl) =
          sectionLines n es ++ writeStoreLines tl := by
        simp [writeStoreLines]
      have hhs : hasSection front n = false := by
        rw [hasSection, hfr (n, es) (by simp)]
        rfl
      have hve : validEntries es := (hval (n, es) (by simp)).2
      have hsec : (sectionLines n es).foldlM readLine ⟨front, cur, secsA, optsA⟩ =
          .ok ⟨front ++ [(n, es)], some n, n :: secsA,
               (es.map (fun kv => (n, kv.1))).reverse ++ optsA⟩ := by
        rw [sectionLines, foldlM_readLine_cons_ok _ _ _ _
          (readLine_header _ n (hval (n, es) (by simp)).1
            (contains_eq_false _ _ (hsA (n, es) (by simp))))]
        simp only [hhs, Bool.false_eq_true, if_false, ite_false, addSection]
        rw [foldlM_readLine_append,
            run_entries_fresh es front n [] (n :: secsA) optsA (hfr (n, es) (by simp))
              hve.2 hve.1 (fun kv _ => rfl) (fun kv hm => hoA (n, es) (by simp) kv hm)]
        simp [foldlM_readLine_blank_single, readLine_blank]
      rw [hlines, foldlM_readLine_append, hsec]
      simp only [List.map_cons, List.nodup_cons] at hnd
      have hfr2 : ∀ p ∈ tl, lookupSec (front ++ [(n, es)]) p.1 = none := by
        intro p hm
        have hne : p.1 ≠ n := by
          intro he
          exact hnd.1 (he ▸ (List.mem_map.mpr ⟨p, hm, rfl⟩))
        rw [lookupSec_append_ne _ _ _ _ hne]
        exact hfr p (List.mem_cons_of_mem _ hm)
      have hsA2 : ∀ p ∈ tl, p.1 ∉ (n :: secsA) := by
        intro p hm hmem
        rcases List.mem_cons.mp hmem with he | he
        · exact hnd.1 (he ▸ (List.mem_map.mpr ⟨p, hm, rfl⟩))
        · exact hsA p (List.mem_cons_of_mem _ hm) he
      have hoA2 : ∀ p ∈ tl, ∀ kv ∈ p.2,
          (p.1, kv.1) ∉ ((es.map (fun kv => (n, kv.1))).reverse ++ optsA) := by
        intro p hm kv hkv hmem
        rcases List.mem_append.mp hmem with he | he
        · rw [List.mem_reverse] at he
          obtain ⟨x, _, hx⟩ := List.mem_map.mp he
          rw [Prod.mk.injEq] at hx
          exact hnd.1 (hx.1 ▸ (List.mem_map.mpr ⟨p, hm, rfl⟩))
        · exact hoA p (List.mem_cons_of_mem _ hm) kv hkv he
      obtain ⟨cur2, secsA2, optsA2, hrest⟩ := ih (front ++ [(n, es)]) (some n) (n :: secsA)
        ((es.map (fun kv => (n, kv.1))).reverse ++ optsA) hnd.2
        (fun p hm => hval p (List.mem_cons_of_mem _ hm)) hfr2 hsA2 hoA2
      refine ⟨cur2, secsA2, optsA2, ?_⟩
      change List.foldlM readLine _ (writeStoreLines tl) = _
      rw [hrest]
      simp [List.append_assoc]

theorem run_store_same : ∀ (rest cfg : Sections) (cur : Option String)
    (secsA : List String) (optsA : List (String × String)),
    (rest.map Prod.fst).Nodup →
    (∀ p ∈ rest, validName p.1 ∧ validEntries p.2) →
    (∀ p ∈ rest, lookupSec cfg p.1 = some p.2) →
    (∀ p ∈ rest, p.1 ∉ secsA) →
    (∀ p ∈ rest, ∀ kv ∈ p.2, (p.1, kv.1) ∉ optsA) →
    ∃ cur2 secsA2 optsA2,
      (writeStoreLines rest).foldlM readLine ⟨cfg, cur, secsA, optsA⟩ =
        .ok ⟨cfg, cur2, secsA2, optsA2⟩ := by
  intro rest
  induction rest with
  | nil =>
      intro cfg cur secsA optsA _ _ _ _ _
      refine ⟨cur, secsA, optsA, ?_⟩
      simp only [writeStoreLines, List.map_nil, List.flatten_nil, foldlM_readLine_nil]
  | cons hd tl ih =>
      intro cfg cur secsA optsA hnd hval hsub hsA hoA
      obtain ⟨n, es⟩ := hd
      have hlines : writeStoreLines ((n, es) :: tl) =
          sectionLines n es ++ writeStoreLines tl := by
        simp [writeStoreLines]
      have hhs : hasSection cfg n = true := by
        rw [hasSection, hsub (n, es) (by simp)]
        rfl
      have hve : validEntries es := (hval (n, es) (by simp)).2
      have hsubE : ∀ kv ∈ es, lookupEntry es kv.1 = some kv.2 := by
        intro kv hkv
        exact lookupEntry_eq_some_of_mem_nodup es kv.1 kv.2 hve.1 hkv
      have hsec : (sectionLines n es).foldlM readLine ⟨cfg, cur, secsA, optsA⟩ =
          .ok ⟨cfg, some n, n :: secsA,
               (es.map (fun kv => (n, kv.1))).reverse ++ optsA⟩ := by
        rw [sectionLines, foldlM_readLine_cons_ok _ _ _ _
          (readLine_header _ n (hval (n, es) (by simp)).1
            (contains_eq_false _ _ (hsA (n, es) (by simp))))]
        simp only [hhs, if_true, ite_true]
        rw [foldlM_readLine_append,
            run_entries_same es cfg n es (n :: secsA) optsA (hsub (n, es) (by simp))
              hsubE hve.2 hve.1 (fun kv hm => hoA (n, es) (by simp) kv hm)]
        simp [foldlM_readLine_blank_single, readLine_blank]
      rw [hlines, foldlM_readLine_append, hsec]
      simp only [List.map_cons, List.nodup_cons] at hnd
      have hsA2 : ∀ p ∈ tl, p.1 ∉ (n :: secsA) := by
        intro p hm hmem
        rcases List.mem_cons.mp hmem with he | he
        · exact hnd.1 (he ▸ (List.mem_map.mpr ⟨p, hm, rfl⟩))
        · exact hsA p (List.mem_cons_of_mem _ hm) he
      have hoA2 : ∀ p ∈ tl, ∀ kv ∈ p.2,
          (p.1, kv.1) ∉ ((es.map (fun kv => (n, kv.1))).reverse ++ optsA) := by
        intro p hm kv hkv hmem
        rcases List.mem_append.mp hmem with he | he
        · rw [List.mem_reverse] at he
          obtain ⟨x, _, hx⟩ := List.mem_map.mp he
          rw [Prod.mk.injEq] at hx
          exact hnd.1 (hx.1 ▸ (List.mem_map.mpr ⟨p, hm, rfl⟩))
        · exact hoA p (List.mem_cons_of_mem _ hm) kv hkv he
      obtain ⟨cur2, secsA2, optsA2, hrest⟩ := ih cfg (some n) (n :: secsA)
        ((es.map (fun kv => (n, kv.1))).reverse ++ optsA) hnd.2
        (fun p hm => hval p (List.mem_cons_of_mem _ hm))
        (fun p hm => hsub p (List.mem_cons_of_mem _ hm)) hsA2 hoA2
      refine ⟨cur2, secsA2, optsA2, ?_⟩
      change List.foldlM readLine _ (writeStoreLines tl) = _
      rw [hrest]

theorem readInto_writeStore_fresh (st : Sections) (hv : validStore st) :
    readInto [] (writeStore st) = .ok st := by
  have hnn : ∀ l ∈ writeStoreLines st, '\n' ∉ l.data := writeStoreLines_no_newline st hv
  obtain ⟨cur2, secsA2, optsA2, hrun⟩ := run_store_fresh st [] none [] [] hv.1 hv.2
    (fun p _ => rfl) (fun p _ => by simp) (fun p _ kv _ => by simp)
  unfold readInto readLinesInto
  rw [writeStore, splitLines_unlines _ hnn]
  simp only [foldlM_readLine_append, hrun, foldlM_readLine_blank_single, Except.map,
    List.nil_append]

theorem readInto_writeStore_same (cfg : Sections) (hv : validStore cfg) :
    readInto cfg (writeStore cfg) = .ok cfg := by
  have hnn : ∀ l ∈ writeStoreLines cfg, '\n' ∉ l.data := writeStoreLines_no_newline cfg hv
  have hsub : ∀ p ∈ cfg, lookupSec cfg p.1 = some p.2 := by
    intro p hm
    exact lookupSec_eq_some_of_mem_nodup cfg p.1 p.2 hv.1 hm
  obtain ⟨cur2, secsA2, optsA2, hrun⟩ := run_store_same cfg cfg none [] [] hv.1 hv.2
    hsub (fun p _ => by simp) (fun p _ kv _ => by simp)
  unfold readInto readLinesInto
  rw [writeStore, splitLines_unlines _ hnn]
  simp only [foldlM_readLine_append, hrun, foldlM_readLine_blank_single, Except.map]

theorem mem_setEntry (es : Entries) (k v : String) (kv : String × String)
    (h : kv ∈ setEntry es k v) : kv ∈ es ∨ kv = (k, v) := by
  induction es with
  | nil =>
      rw [setEntry] at h
      simp at h
      exact Or.inr h
  | cons hd tl ih =>
      obtain ⟨k0, v0⟩ := hd
      by_cases hk : k0 = k
      · rw [setEntry, if_pos hk] at h
        rcases List.mem_cons.mp h with he | he
        · exact Or.inr he
        · exact Or.inl (List.mem_cons_of_mem _ he)
      · rw [setEntry, if_neg hk] at h
        rcases List.mem_cons.mp h with he | he
        · exact Or.inl (by simp [he])
        · rcases ih he with h2 | h2
          · exact Or.inl (List.mem_cons_of_mem _ h2)
          · exact Or.inr h2

theorem validEntries_setEntry (es : Entries) (k v : String)
    (he : validEntries es) (hk : validKey k) (hv : validValue v) :
    validEntries (setEntry es k v) := by
  constructor
  · cases hlk : lookupEntry es k with
    | some v0 =>
        rw [map_fst_setEntry_of_lookup es k v (by rw [hlk]; simp)]
        exact he.1
    | none =>
        rw [setEntry_append_of_lookup_none _ _ _ hlk, List.map_append]
        refine he.1.append (by simp) ?_
        intro x hx hx2
        simp only [List.map_cons, List.map_nil, List.mem_singleton] at hx2
        exact (lookupEntry_eq_none_iff es k).mp hlk (hx2 ▸ hx)
  · intro kv hm
    rcases mem_setEntry es k v kv hm with h2 | h2
    · exact he.2 kv h2
    · rw [h2]
      exact ⟨hk, hv⟩

theorem mem_setOption (c : Sections) (sec k v : String) (p : String × Entries)
    (h : p ∈ setOption c sec k v) :
    p ∈ c ∨ ∃ es, (p.1, es) ∈ c ∧ p.2 = setEntry es (optionxform k) v := by
  induction c with
  | nil => simp [setOption] at h
  | cons hd tl ih =>
      obtain ⟨m, e⟩ := hd
      by_cases hm : m = sec
      · rw [setOption, if_pos hm] at h
        rcases List.mem_cons.mp h with he | he
        · right
          refine ⟨e, ?_, ?_⟩ <;> rw [he]
          · simp
        · left
          exact List.mem_cons_of_mem _ he
      · rw [setOption, if_neg hm] at h
        rcases List.mem_cons.mp h with he | he
        · left
          simp [he]
        · rcases ih he with h2 | h2
          · left
            exact List.mem_cons_of_mem _ h2
          · right
            obtain ⟨es, hmem, hpe⟩ := h2
            exact ⟨es, List.mem_cons_of_mem _ hmem, hpe⟩

theorem validStore_setOption (c : Sections) (sec k v : String)
    (hv : validStore c) (hk : validKey k) (hvv : validValue v) :
    validStore (setOption c sec k v) := by
  refine ⟨names_nodup_setOption _ _ _ _ hv.1, ?_⟩
  intro p hp
  rcases mem_setOption c sec k v p hp with h | h
  · exact hv.2 p h
  · obtain ⟨es, hmem, hpe⟩ := h
    refine ⟨(hv.2 (p.1, es) hmem).1, ?_⟩
    rw [hpe, hk.2.1]
    exact validEntries_setEntry es k v (hv.2 (p.1, es) hmem).2 hk hvv

theorem validStore_ensure (c : Sections) (nm : String) (hv : validStore c) (hn : validName nm) :
    validStore (if hasSection c nm then c else addSection c nm) := by
  by_cases hb : hasSection c nm
  · rw [if_pos hb]
    exact hv
  · have hnodup := names_nodup_ensure c nm hv.1
    rw [if_neg hb] at hnodup ⊢
    refine ⟨hnodup, ?_⟩
    intro p hp
    rw [addSection] at hp
    rcases List.mem_append.mp hp with h | h
    · exact hv.2 p h
    · simp only [List.mem_singleton] at h
      rw [h]
      refine ⟨hn, by simp [validEntries], ?_⟩
      intro kv hm
      simp at hm

theorem validStore_applyAdd (st : Sections) (n a s t : String)
    (hv : validStore st) (hn : validName n) (ha : validValue a) (hs : validValue s)
    (ht : validValue t) : validStore (applyAdd st n a s t) := by
  have h1 := validStore_ensure st n hv hn
  have h2 := validStore_setOption _ n "aws_access_key_id" a h1 (by decide) ha
  have h3 := validStore_setOption _ n "aws_secret_access_key" s h2 (by decide) hs
  by_cases htb : (t != "") = true
  · simp only [applyAdd, htb, if_true, ite_true]
    exact validStore_setOption _ n "aws_session_token" t h3 (by decide) ht
  · have hf : (t != "") = false := by simpa using htb
    simp only [applyAdd, hf, Bool.false_eq_true, if_false, ite_false]
    exact h3

theorem add_profile_eq_applyAdd (m : Manager) (w : World) (n a s t : String) (st : Sections)
    (h : readInto m.config w.file = .ok st) :
    add_profile m w n a s t =
      .ok (⟨applyAdd st n a s t⟩, ⟨writeStore (applyAdd st n a s t), some w.file⟩,
           [.copyToBak w.file, .writeFile (writeStore (applyAdd st n a s t))]) := by
  unfold add_profile applyAdd
  rw [load_ok m w st h]

theorem applyAdd_lookup (st : Sections) (n a s t : String) :
    ∃ es, lookupSec (applyAdd st n a s t) n = some es ∧
      lookupEntry es "aws_access_key_id" = some a ∧
      lookupEntry es "aws_secret_access_key" = some s ∧
      (t ≠ "" → lookupEntry es "aws_session_token" = some t) := by
  have hbase : ∃ b, lookupSec (if hasSection st n then st else addSection st n) n = some b := by
    by_cases hb : hasSection st n
    · rw [if_pos hb]
      exact Option.isSome_iff_exists.mp hb
    · have hnone : lookupSec st n = none := by
        cases hlk : lookupSec st n with
        | none => rfl
        | some x => exact absurd (by rw [hasSection, hlk]; rfl) hb
      rw [if_neg hb]
      exact ⟨[], lookupSec_addSection_self _ _ hnone⟩
  obtain ⟨b, hb⟩ := hbase
  have hx1 : optionxform "aws_access_key_id" = "aws_access_key_id" := rfl
  have hx2 : optionxform "aws_secret_access_key" = "aws_secret_access_key" := rfl
  have hx3 : optionxform "aws_session_token" = "aws_session_token" := rfl
  by_cases htb : (t != "") = true
  · refine ⟨setEntry (setEntry (setEntry b "aws_access_key_id" a) "aws_secret_access_key" s)
      "aws_session_token" t, ?_, ?_, ?_, ?_⟩
    · simp only [applyAdd, htb, if_true, ite_true]
      rw [lookupSec_setOption_self, lookupSec_setOption_self, lookupSec_setOption_self, hb,
        hx1, hx2, hx3]
      rfl
    · rw [lookupEntry_setEntry_ne _ _ _ _ (by decide),
          lookupEntry_setEntry_ne _ _ _ _ (by decide), lookupEntry_setEntry_self]
    · rw [lookupEntry_setEntry_ne _ _ _ _ (by decide), lookupEntry_setEntry_self]
    · intro _
      rw [lookupEntry_setEntry_self]
  · have hf : (t != "") = false := by simpa using htb
    have hteq : t = "" := by simpa using hf
    refine ⟨setEntry (setEntry b "aws_access_key_id" a) "aws_secret_access_key" s,
      ?_, ?_, ?_, ?_⟩
    · simp only [applyAdd, hf, Bool.false_eq_true, if_false, ite_false]
      rw [lookupSec_setOption_self, lookupSec_setOption_self, hb, hx1, hx2]
      rfl
    · rw [lookupEntry_setEntry_ne _ _ _ _ (by decide), lookupEntry_setEntry_self]
    · rw [lookupEntry_setEntry_self]
    · intro hc
      exact absurd hteq hc

theorem applyAdd_self (cfg : Sections) (n a s t : String)
    (hhs : hasSection cfg n = true)
    (es : Entries) (hlk : lookupSec cfg n = some es)
    (hak : lookupEntry es "aws_access_key_id" = some a)
    (hsk : lookupEntry es "aws_secret_access_key" = some s)
    (htok : t ≠ "" → lookupEntry es "aws_session_token" = some t) :
    applyAdd cfg n a s t = cfg := by
  have h1 : setOption cfg n "aws_access_key_id" a = cfg := by
    refine setOption_eq_of_lookup cfg n _ _ es hlk ?_
    rw [show optionxform "aws_access_key_id" = "aws_access_key_id" from rfl]
    exact setEntry_eq_of_lookup _ _ _ hak
  have h2 : setOption cfg n "aws_secret_access_key" s = cfg := by
    refine setOption_eq_of_lookup cfg n _ _ es hlk ?_
    rw [show optionxform "aws_secret_access_key" = "aws_secret_access_key" from rfl]
    exact setEntry_eq_of_lookup _ _ _ hsk
  by_cases htb : (t != "") = true
  · have h3 : setOption cfg n "aws_session_token" t = cfg := by
      refine setOption_eq_of_lookup cfg n _ _ es hlk ?_
      rw [show optionxform "aws_session_token" = "aws_session_token" from rfl]
      exact setEntry_eq_of_lookup _ _ _ (htok (by simpa using htb))
    simp only [applyAdd, hhs, if_true, ite_true, h1, h2, htb, h3]
  · have hf : (t != "") = false := by simpa using htb
    simp only [applyAdd, hhs, if_true, ite_true, h1, h2, hf, Bool.false_eq_true, if_false,
      ite_false]

/-- C4, amended: load-after-save is the identity for every valid store whose
option keys are already in the lower-case form the INI machinery normalises
every key to: all sections and entries come back exactly, in the same
order.  (Keys are not treated case-sensitively; see the counterexample.) -/
theorem C4_roundtrip_lowercase (st : Sections) (hv : validStore st) :
    readInto [] (writeStore st) = .ok st :=
  readInto_writeStore_fresh st hv

theorem C4_roundtrip_lowercase_witness :
    readInto [] (writeStore [("s", [("a", "1"), ("b", "x y")]), ("t", [])]) =
      .ok [("s", [("a", "1"), ("b", "x y")]), ("t", [])] :=
  C4_roundtrip_lowercase [("s", [("a", "1"), ("b", "x y")]), ("t", [])] (by decide)

/-- C9: starting from any file that parses to a valid store and any
arguments within the modelled single-line subset, calling `add_profile`
twice with the same arguments succeeds both times and leaves the main file
after the second call identical to the file after the first call, while the
backup after the second call holds the post-first-call state. -/
theorem C9_add_profile_idempotent (m0 : Manager) (w0 : World) (st0 : Sections)
    (n a s t : String)
    (hld : readInto m0.config w0.file = .ok st0)
    (hv : validStore st0) (hn : validName n)
    (ha : validValue a) (hs : validValue s) (ht : validValue t) :
    ∃ m1 w1 e1 m2 w2 e2,
      add_profile m0 w0 n a s t = .ok (m1, w1, e1) ∧
      add_profile m1 w1 n a s t = .ok (m2, w2, e2) ∧
      w2.file = w1.file ∧ w2.bak = some w1.file := by
  have h1 := add_profile_eq_applyAdd m0 w0 n a s t st0 hld
  have hv1 : validStore (applyAdd st0 n a s t) := validStore_applyAdd st0 n a s t hv hn ha hs ht
  obtain ⟨es, hlk, hak, hsk, htok⟩ := applyAdd_lookup st0 n a s t
  have hread2 : readInto (applyAdd st0 n a s t) (writeStore (applyAdd st0 n a s t)) =
      .ok (applyAdd st0 n a s t) := readInto_writeStore_same _ hv1
  have h2 := add_profile_eq_applyAdd ⟨applyAdd st0 n a s t⟩
    ⟨writeStore (applyAdd st0 n a s t), some w0.file⟩ n a s t (applyAdd st0 n a s t) hread2
  have hfix : applyAdd (applyAdd st0 n a s t) n a s t = applyAdd st0 n a s t :=
    applyAdd_self _ n a s t (by rw [hasSection, hlk]; rfl) es hlk hak hsk htok
  refine ⟨⟨applyAdd st0 n a s t⟩, ⟨writeStore (applyAdd st0 n a s t), some w0.file⟩, _,
    ⟨applyAdd (applyAdd st0 n a s t) n a s t⟩,
    ⟨writeStore (applyAdd (applyAdd st0 n a s t) n a s t),
     some (writeStore (applyAdd st0 n a s t))⟩, _, h1, h2, ?_, ?_⟩
  · show writeStore (applyAdd (applyAdd st0 n a s t) n a s t) = writeStore (applyAdd st0 n a s t)
    rw [hfix]
  · rfl

theorem C9_add_profile_idempotent_witness :
    ∃ m1 w1 e1 m2 w2 e2,
      add_profile ⟨[]⟩ ⟨"", none⟩ "p" "AK" "SK" "" = .ok (m1, w1, e1) ∧
      add_profile m1 w1 "p" "AK" "SK" "" = .ok (m2, w2, e2) ∧
      w2.file = w1.file ∧ w2.bak = some w1.file :=
  C9_add_profile_idempotent ⟨[]⟩ ⟨"", none⟩ [] "p" "AK" "SK" "" rfl (by decide) (by decide)
    (by decide) (by decide) (by decide)
